import Mathlib

/-!
# Verification of the `logic.py` symbolic-logic core

A shallow embedding of `en/parser/nltk_lite/semantics/logic.py`: untyped
lambda-calculus / first-order-logic expression trees, capture-avoiding
substitution (`replace`), alpha-equivalence (`equals`), beta-reduction
(`simplify`), Skolemization (`skolemise`), the string renderer (`__str__`)
and the recursive-descent parser (`Parser`).

Python strings are embedded as `String` (names) and `List Char` (buffers);
the shared mutable fresh-name counters are threaded explicitly as `Nat`
state.  All definitions are executable so that concrete runs of the code
can be checked by `decide`/`rfl`.
-/

/-- Modelled from the spec: the fresh-name source `Counter` is imported from
`en.parser.nltk_lite.utilities`, which is not part of the sources; the spec
describes it as "a monotonically increasing counter used to mint
globally-unique names".  `counterGet c` advances the counter state `c` and
returns the freshly minted value together with the new state. -/
def counterGet (c : Nat) : Nat × Nat := (c + 1, c + 1)

/-- The three concrete binder classes of `logic.py`:
`LambdaExpression`, `SomeExpression`, `AllExpression`. -/
inductive BKind
  | lam
  | someE
  | allE
deriving DecidableEq, Repr

/-- Expression trees of `logic.py`.  `var ind n` covers both
`VariableExpression` (`ind = false`) and its subclass
`IndVariableExpression` (`ind = true`); `const` is `ConstantExpression`,
`oper` is `Operator`, `bind` covers the three `VariableBinderExpression`
subclasses and `app` is `ApplicationExpression`.  `Variable` and
`Constant` are name-based value types, so they are embedded as the
`String` name they carry. -/
inductive Expr
  | var (ind : Bool) (name : String)
  | const (name : String)
  | oper (name : String)
  | bind (k : BKind) (v : String) (body : Expr)
  | app (first second : Expr)
deriving DecidableEq, Repr

namespace Expr

/-- `Expression.free()`: the set of free variables, as a list whose
membership is the set membership of the Python `set` (duplicates are
irrelevant).  `VariableExpression.free` is `{self.variable}`,
`ConstantExpression.free` (hence also `Operator`) is empty,
`ApplicationExpression.free` is the union of the operands' sets, and
`VariableBinderExpression.free` removes the bound variable from the
body's set. -/
def free : Expr → List String
  | .var _ n => [n]
  | .const _ => []
  | .oper _ => []
  | .bind _ x M => (free M).filter (fun y => y ≠ x)
  | .app a b => free a ∪ free b

/-- Number of nodes of an expression tree; used as the recursion fuel of
`replaceF` (substitution recurses into an alpha-renamed body, which is not
a structural subterm, but renaming preserves the node count). -/
def size : Expr → Nat
  | .var _ _ => 1
  | .const _ => 1
  | .oper _ => 1
  | .bind _ _ M => size M + 1
  | .app a b => size a + size b + 1


end Expr

/-- Fuelled form of `Expression.replace(variable, expression)`:
capture-avoiding substitution with the class-level alpha-conversion
counter threaded as the last argument.

* `VariableExpression.replace`: return `expression` when the names match,
  otherwise the node itself (the `ind` flag plays no role).
* `ConstantExpression.replace` (hence `Operator`): the node itself.
* `ApplicationExpression.replace`: substitute into `first`, then into
  `second`, and rebuild.
* `VariableBinderExpression.replace`: if the bound variable equals the
  substituted variable the binder shadows it and is returned unchanged;
  if the bound variable occurs free in `expression`, first mint
  `"z" + str(self._counter.get())` and `alpha_convert` the binder to it
  (replace the bound variable by a fresh generic `VariableExpression`
  in the body), then substitute in the renamed body and rebuild with the
  new bound variable; otherwise substitute in the body directly.

The fuel is one unit per recursive call; `Expr.size` of the subject term
is always enough (see `replaceF_eq_replace`). -/
def replaceF : Nat → Expr → String → Expr → Nat → Expr × Nat
  | 0, t, _, _, c => (t, c)
  | _ + 1, .var i n, v, e, c => if n = v then (e, c) else (.var i n, c)
  | _ + 1, .const n, _, _, c => (.const n, c)
  | _ + 1, .oper n, _, _, c => (.oper n, c)
  | f + 1, .app a b, v, e, c =>
      let p := replaceF f a v e c
      let q := replaceF f b v e p.2
      (.app p.1 q.1, q.2)
  | f + 1, .bind k b M, v, e, c =>
      if b = v then (.bind k b M, c)
      else if b ∈ e.free then
        let m := counterGet c
        let z := "z" ++ toString m.1
        let p := replaceF f M b (.var false z) m.2
        let q := replaceF f p.1 v e p.2
        (.bind k z q.1, q.2)
      else
        let p := replaceF f M v e c
        (.bind k b p.1, p.2)

/-- `Expression.replace(variable, expression)` with the shared
alpha-conversion counter threaded explicitly: `replace t v e c` returns
the substituted term together with the new counter state. -/
def replace (t : Expr) (v : String) (e : Expr) (c : Nat) : Expr × Nat :=
  replaceF t.size t v e c

/-- `Expression.equals` / `__eq__`: structural equality modulo alpha
conversion, with the shared counter threaded (comparing `\x.M` with
`\y.N` relabels `y` to `x` in `N` via `replace`, which may mint fresh
names).  Variable expressions compare by name only, regardless of
`VariableExpression` vs `IndVariableExpression`; constants and operators
compare by name within their own class; applications compare
componentwise (short-circuiting like Python `and`); binder nodes of
different classes, and nodes of different classes generally, are
unequal. -/
def equals : Expr → Expr → Nat → Bool × Nat
  | .var _ n, .var _ m, c => (n == m, c)
  | .const n, .const m, c => (n == m, c)
  | .oper n, .oper m, c => (n == m, c)
  | .app a b, .app a' b', c =>
      let p := equals a a' c
      if p.1 then equals b b' p.2 else (false, p.2)
  | .bind k x M, .bind k' y N, c =>
      if k = k' then
        if x = y then equals M N c
        else
          let p := replace N y (.var false x) c
          equals M p.1 p.2
      else (false, c)
  | _, _, c => (false, c)

/-- Fuelled form of `Expression.simplify()`: repeated beta-reduction.
Leaves (including `Operator.simplify`) return themselves; a binder
simplifies its body and rebuilds; an application simplifies `first` and
`second` and, when the simplified functor is a `LambdaExpression`,
beta-reduces via `replace` and keeps simplifying the contractum.  The
calculus is Turing-complete, so the recursion carries fuel; `none` means
the fuel ran out (the Python code would still be recursing). -/
def simplifyF : Nat → Expr → Nat → Option (Expr × Nat)
  | 0, _, _ => none
  | _ + 1, .var i n, c => some (.var i n, c)
  | _ + 1, .const n, c => some (.const n, c)
  | _ + 1, .oper n, c => some (.oper n, c)
  | f + 1, .bind k x M, c =>
      match simplifyF f M c with
      | none => none
      | some (M', c') => some (.bind k x M', c')
  | f + 1, .app a b, c =>
      match simplifyF f a c with
      | none => none
      | some (a', c1) =>
        match simplifyF f b c1 with
        | none => none
        | some (b', c2) =>
          match a' with
          | .bind .lam x B =>
              let p := replace B x b' c2
              simplifyF f p.1 p.2
          | .var i n => some (.app (.var i n) b', c2)
          | .const n => some (.app (.const n) b', c2)
          | .oper n => some (.app (.oper n) b', c2)
          | .bind .someE x B => some (.app (.bind .someE x B) b', c2)
          | .bind .allE x B => some (.app (.bind .allE x B) b', c2)
          | .app a1 a2 => some (.app (.app a1 a2) b', c2)

/-- `t` at counter `c` simplifies (in the sense of
`Expression.simplify()`) to `r` with final counter `c'`: some amount of
fuel suffices. -/
def Simplifies (t : Expr) (c : Nat) (r : Expr) (c' : Nat) : Prop :=
  ∃ f, simplifyF f t c = some (r, c')

/-- Fuelled form of `Expression._skolemise(bound_vars, counter)`.

The Python method mutates two pieces of shared state: the `bound_vars`
set (aliased between an `ApplicationExpression`'s operands, and passed to
the caller's continuation, but *copied* by `LambdaExpression` and
`AllExpression` before adding their bound variable) and two counters (the
`Counter` created by `skolemise()` minting `_s<N>` Skolem names, and the
class-level alpha-conversion counter used by the `replace` call inside
`SomeExpression._skolemise`).  All three are threaded explicitly:
`skolF fuel t bv sc ac = (result, bv', sc', ac')` where `bv'` is the set
the caller observes afterwards.

* leaves return themselves;
* `LambdaExpression`/`AllExpression` recurse into the body with
  `bv.insert x` (a copy) and rebuild the binder, leaving the caller's set
  untouched;
* `SomeExpression` drops the quantifier: if its variable collides with
  `bound_vars` it mints `_s<N>` from the Skolem counter and substitutes
  it in the body via `replace`; the (possibly renamed) variable is added
  to the caller's own set and the body's skolemisation is returned
  directly;
* `ApplicationExpression` skolemises `first` then `second` with the same
  shared set. -/
def skolF : Nat → Expr → List String → Nat → Nat →
    Expr × List String × Nat × Nat
  | 0, t, bv, sc, ac => (t, bv, sc, ac)
  | _ + 1, .var i n, bv, sc, ac => (.var i n, bv, sc, ac)
  | _ + 1, .const n, bv, sc, ac => (.const n, bv, sc, ac)
  | _ + 1, .oper n, bv, sc, ac => (.oper n, bv, sc, ac)
  | f + 1, .bind .lam x M, bv, sc, ac =>
      let r := skolF f M (bv.insert x) sc ac
      (.bind .lam x r.1, bv, r.2.2.1, r.2.2.2)
  | f + 1, .bind .allE x M, bv, sc, ac =>
      let r := skolF f M (bv.insert x) sc ac
      (.bind .allE x r.1, bv, r.2.2.1, r.2.2.2)
  | f + 1, .bind .someE x M, bv, sc, ac =>
      if x ∈ bv then
        let m := counterGet sc
        let v := "_s" ++ toString m.1
        let p := replace M x (.var false v) ac
        skolF f p.1 (bv.insert v) m.2 p.2
      else
        skolF f M (bv.insert x) sc ac
  | f + 1, .app a b, bv, sc, ac =>
      let r1 := skolF f a bv sc ac
      let r2 := skolF f b r1.2.1 r1.2.2.1 r1.2.2.2
      (.app r1.1 r2.1, r2.2)

/-- `Expression._skolemise(bound_vars, counter)` with the canonical fuel. -/
def skolemiseAux (t : Expr) (bv : List String) (sc ac : Nat) :
    Expr × List String × Nat × Nat :=
  skolF t.size t bv sc ac

/-- `Expression.skolemise()`: run `_skolemise` with an empty set of bound
variables and a fresh `_s` counter; the class-level alpha counter `ac` is
whatever it currently is.  Returns the result together with the final
alpha counter. -/
def skolemise (t : Expr) (ac : Nat) : Expr × Nat :=
  let r := skolemiseAux t [] 0 ac
  (r.1, r.2.2.2)

/-- `Expression.subterms()`: all sub-expressions including the node
itself (the Python `set` embedded as a list; membership is what
matters). -/
def Expr.subterms : Expr → List Expr
  | .var i n => [.var i n]
  | .const n => [.const n]
  | .oper n => [.oper n]
  | .bind k x M => (Expr.subterms M).union [.bind k x M]
  | .app a b => ((Expr.subterms a).union (Expr.subterms b)).union [.app a b]

/-- `isinstance(e, ApplicationExpression)`. -/
def Expr.isApp : Expr → Bool
  | .app _ _ => true
  | _ => false

/-- `isinstance(e, Operator)`. -/
def Expr.isOper : Expr → Bool
  | .oper _ => true
  | _ => false

/-- `isinstance(e, SomeExpression)`: an existential binder node. -/
def Expr.isSomeE : Expr → Bool
  | .bind .someE _ _ => true
  | _ => false

/-- `is_indvar(expr)`: first character in `{w, x, y, z}` and, when the
name is longer than one character, the remainder all digits. -/
def is_indvar (s : String) : Bool :=
  match s.data with
  | [] => false
  | c :: rest =>
      (c == 'w' || c == 'x' || c == 'y' || c == 'z') &&
        (match rest with
         | [] => true
         | _ => rest.all Char.isDigit)

/-- `Parser.OPS`: the boolean operators plus `=`.  (In the source,
`OPS = BOOL; OPS.append(EQ)` aliases the two class lists, so `BOOL` also
ends up holding `=`; only membership matters anywhere.) -/
def OPS : List String := ["and", "or", "not", "implies", "iff", "="]

/-- `Parser.isVariable(token)` for the default parser (no declared
constants): the token is none of the structural tokens, binder keywords,
`=`, or boolean operators. -/
def isVariableTok (t : String) : Bool :=
  !((["\\", "some", "all", ".", "(", ")", "="] ++ OPS).contains t)

/-- `Parser.process()`: tabs and newlines become spaces and each of the
four structural characters `\\ . ( )` is surrounded by spaces.  (The
sequential `str.replace` calls of the source touch disjoint characters
and never re-process inserted ones, so a single character-wise pass is
equivalent.) -/
def processC : List Char → List Char
  | [] => []
  | c :: cs =>
      if c = '\t' ∨ c = '\n' then ' ' :: processC cs
      else if c = '\\' ∨ c = '.' ∨ c = '(' ∨ c = ')' then
        ' ' :: c :: ' ' :: processC cs
      else c :: processC cs

/-- Splitting the processed buffer into whitespace-delimited tokens: the
`Parser.token()` loop skips empty splits and yields maximal space-free
chunks.  `acc` holds the reversed chunk being accumulated. -/
def wordsAux : List Char → List Char → List (List Char)
  | [], acc => if acc = [] then [] else [acc.reverse]
  | c :: cs, acc =>
      if c = ' ' then
        if acc = [] then wordsAux cs [] else acc.reverse :: wordsAux cs []
      else wordsAux cs (c :: acc)

/-- The full token stream that repeated `Parser.token()` calls yield from
a raw buffer. -/
def tokens (s : List Char) : List String :=
  (wordsAux (processC s) []).map (fun l => ⟨l⟩)

/-- The parse-time failures of `Parser`: `token()` on an empty buffer
raises `Error("end of stream")`, and `__next__` raises
`Error("parse error, unexpected token: …")` on an unclassifiable token or
a missing `.` after a binder's variable list. -/
inductive ParseErr
  | endOfStream
  | unexpectedToken (tok : String)
deriving DecidableEq, Repr

/-- The bound-variable collection loop of a binder parse
(`while self.isVariable(self.token(0)): vars.append(self.token())`): peek
and consume while the next token is a variable.  Peeking an empty buffer
raises end-of-stream. -/
def collectVars : List String → Except ParseErr (List String × List String)
  | [] => .error .endOfStream
  | t :: ts =>
      if isVariableTok t then
        match collectVars ts with
        | .error e => .error e
        | .ok (vs, rest) => .ok (t :: vs, rest)
      else .ok ([], t :: ts)

/-- The multi-variable binder sugar: `accum = factory(vars.pop(), term)`
then folding the remaining variables outward, i.e. `\x y.M` becomes
`\x.\y.M`. -/
def buildBinder (k : BKind) (vs : List String) (term : Expr) : Expr :=
  match vs with
  | [] => term
  | v :: vs' => .bind k v (buildBinder k vs' term)

mutual

/-- Fuelled form of `Parser.__next__` over the token stream.  `none`
means the fuel ran out (the Python recursion would still be running);
`some (.error e)` is a raised parse `Error`; `some (.ok (e, rest))` is
the parsed expression with the unconsumed tokens.  Classification follows
the source order: binder keywords; `(` opening an application (parse
`first`, `second`, then further operands until the closing `)`, swap
`first` and `second` when the parsed `second` is an `Operator`, and fold
the remaining operands left-associatively); declared constants (none in
the default parser); operators; individual variables; generic variables;
otherwise an unexpected-token error. -/
def parseF : Nat → List String → Option (Except ParseErr (Expr × List String))
  | 0, _ => none
  | _ + 1, [] => some (.error .endOfStream)
  | f + 1, tok :: rest =>
      if tok = "\\" ∨ tok = "some" ∨ tok = "all" then
        let k := if tok = "\\" then BKind.lam
          else if tok = "some" then BKind.someE else BKind.allE
        match rest with
        | [] => some (.error .endOfStream)
        | v :: rest2 =>
            match collectVars rest2 with
            | .error e => some (.error e)
            | .ok (vs, rest3) =>
                match rest3 with
                | [] => some (.error .endOfStream)
                | d :: rest4 =>
                    if d = "." then
                      match parseF f rest4 with
                      | none => none
                      | some (.error e) => some (.error e)
                      | some (.ok (term, rest5)) =>
                          some (.ok (buildBinder k (v :: vs) term, rest5))
                    else some (.error (.unexpectedToken d))
      else if tok = "(" then
        match parseF f rest with
        | none => none
        | some (.error e) => some (.error e)
        | some (.ok (first, r1)) =>
            match parseF f r1 with
            | none => none
            | some (.error e) => some (.error e)
            | some (.ok (second, r2)) =>
                match parseExps f r2 with
                | none => none
                | some (.error e) => some (.error e)
                | some (.ok (exps, r3)) =>
                    let accum := match second with
                      | .oper n => Expr.app (.oper n) first
                      | _ => Expr.app first second
                    match r3 with
                    | [] => some (.error .endOfStream)
                    | _ :: r4 => some (.ok (exps.foldl Expr.app accum, r4))
      else if OPS.contains tok then some (.ok (.oper tok, rest))
      else if is_indvar tok then some (.ok (.var true tok, rest))
      else if isVariableTok tok then some (.ok (.var false tok, rest))
      else some (.error (.unexpectedToken tok))

/-- The operand loop of an application parse
(`while self.token(0) != Parser.CLOSE: exps.append(next(self))`): parse
expressions until the peeked token is `)`, which is left in the stream
(the caller swallows it). -/
def parseExps : Nat → List String →
    Option (Except ParseErr (List Expr × List String))
  | 0, _ => none
  | _ + 1, [] => some (.error .endOfStream)
  | f + 1, t :: ts =>
      if t = ")" then some (.ok ([], t :: ts))
      else
        match parseF f (t :: ts) with
        | none => none
        | some (.error e) => some (.error e)
        | some (.ok (e, r)) =>
            match parseExps f r with
            | none => none
            | some (.error e2) => some (.error e2)
            | some (.ok (es, r2)) => some (.ok (e :: es, r2))

end

/-- `Parser(data)` followed by one `next()` call: process and tokenize
the buffer, parse the next complete expression, and drop the remaining
buffer.  A fuel of one more than the token count covers the recursion
depth of every run appearing in this development. -/
def parseStr (s : String) : Option (Except ParseErr Expr) :=
  match parseF ((tokens s.data).length + 1) (tokens s.data) with
  | none => none
  | some (.error e) => some (.error e)
  | some (.ok (e, _)) => some (.ok e)

/-- The class `PREFIX` constants of the binder classes (`"\\"`,
`"some "`, `"all "`), `rstrip`-free, as used by `__str__`. -/
def prefixOf : BKind → List Char
  | .lam => ['\\']
  | .someE => "some ".data
  | .allE => "all ".data

/-- `Expression.__str__` with Python strings as character lists, computed
bottom-up.  `renderP e = (str(e), e.__str__(1))`: the second component is
the continuation form used for compact binder chains (`\x y.M`), only
ever consulted for binder nodes.  An application prints `(first second)`,
stripping the parentheses of an application-shaped `first` unless
`second` is an `Operator`; a binder prints its prefix, bound variable,
then either the continuation form of a same-class binder body or `.`
followed by the body. -/
def renderP : Expr → List Char × List Char
  | .var _ n => (n.data, n.data)
  | .const n => (n.data, n.data)
  | .oper n => (n.data, n.data)
  | .app a b =>
      let sa := (renderP a).1
      let sa' := if a.isApp && !b.isOper then (sa.drop 1).dropLast else sa
      let s := '(' :: (sa' ++ ' ' :: ((renderP b).1 ++ [')']))
      (s, s)
  | .bind k x M =>
      let tail : List Char := match M with
        | .bind k' _ _ => if k' = k then (renderP M).2 else '.' :: (renderP M).1
        | _ => '.' :: (renderP M).1
      (prefixOf k ++ x.data ++ tail, ' ' :: (x.data ++ tail))

/-- `str(e)`: the surface rendering of an expression. -/
def render (e : Expr) : String := ⟨(renderP e).1⟩

instance {ε α : Type} [DecidableEq ε] [DecidableEq α] :
    DecidableEq (Except ε α) := fun x y =>
  match x, y with
  | .error e, .error e' =>
      if h : e = e' then .isTrue (by rw [h]) else .isFalse (by simp [h])
  | .ok a, .ok b =>
      if h : a = b then .isTrue (by rw [h]) else .isFalse (by simp [h])
  | .error _, .ok _ => .isFalse (by simp)
  | .ok _, .error _ => .isFalse (by simp)

/-- Is a parse outcome the unexpected-token error (of any token)? -/
def isUnexpectedTok : Option (Except ParseErr Expr) → Bool
  | some (.error (.unexpectedToken _)) => true
  | _ => false

/-- `\y.(x y)`: the binder of the capture-avoidance test. -/
def lamCapture : Expr := .bind .lam "y" (.app (.var true "x") (.var true "y"))

/-- `\y.(x z1)`: a binder whose body contains a free occurrence of `z1`,
the very name the class counter mints first. -/
def lamCollide : Expr := .bind .lam "y" (.app (.var true "x") (.var false "z1"))

/-- Church numeral zero, `\f x.x`, as the parser builds it. -/
def churchZero : Expr := .bind .lam "f" (.bind .lam "x" (.var true "x"))

/-- Church numeral one, `\f x.(f x)`. -/
def churchOne : Expr :=
  .bind .lam "f" (.bind .lam "x" (.app (.var false "f") (.var true "x")))

/-- Church numeral two, `\f x.(f (f x))`. -/
def churchTwo : Expr :=
  .bind .lam "f" (.bind .lam "x"
    (.app (.var false "f") (.app (.var false "f") (.var true "x"))))

/-- The Church successor, `\n f x.(f (n f x))`. -/
def churchSucc : Expr :=
  .bind .lam "n" (.bind .lam "f" (.bind .lam "x"
    (.app (.var false "f")
      (.app (.app (.var false "n") (.var false "f")) (.var true "x")))))

/-- `parse("some x.(man x)")`. -/
def manTerm : Expr := .bind .someE "x" (.app (.var false "man") (.var true "x"))

/-- `all x.some y.(some y.(loves x y))`: nested existentials reusing `y`
under a universal. -/
def nestedSomeTerm : Expr :=
  .bind .allE "x" (.bind .someE "y" (.bind .someE "y"
    (.app (.app (.var false "loves") (.var true "x")) (.var true "y"))))

/-- `(some y.(P y) some y.(Q y))`: an application whose operands are
sibling existentials over the same variable name, neither enclosing the
other. -/
def siblingSomeTerm : Expr :=
  .app (.bind .someE "y" (.app (.var false "P") (.var true "y")))
    (.bind .someE "y" (.app (.var false "Q") (.var true "y")))

/-- `((a b) and)`: the expression the parser itself produces from
`"(a b and)"` (an operator in third position is folded in, not swapped). -/
def opSecondTerm : Expr :=
  .app (.app (.var false "a") (.var false "b")) (.oper "and")

example : parseStr "(a and b)"
    = some (.ok (.app (.app (.oper "and") (.var false "a")) (.var false "b"))) := by
  decide

example : parseStr "\\x" = some (.error .endOfStream) := by decide

example : parseStr "" = some (.error .endOfStream) := by decide

example : render (.bind .lam "x" (.bind .lam "y" (.app (.var true "x") (.var true "y"))))
    = "\\x y.(x y)" := by decide

example : parseStr "\\x y.(x y)"
    = some (.ok (.bind .lam "x" (.bind .lam "y" (.app (.var true "x") (.var true "y"))))) := by
  decide

/-- Characters with a tokenizer-level meaning: whitespace (turned into
token separators) and the four structural characters that `process`
isolates into tokens of their own.  A name containing one of these cannot
survive a render/re-tokenize round trip as a single token. -/
def specialChar (c : Char) : Bool :=
  c = ' ' || c = '\t' || c = '\n' || c = '\\' || c = '.' || c = '(' || c = ')'

/-- The name renders as one token: nonempty and free of special
characters. -/
def tokChars (s : String) : Bool :=
  !s.data.isEmpty && s.data.all (fun c => !specialChar c)

/-- A name that the default parser will read back as a variable: it
renders as one token and is neither a binder keyword nor an operator. -/
def goodName (s : String) : Bool :=
  tokChars s && !((["some", "all"] ++ OPS).contains s)

/-- The round-trippable expressions: every variable (free or bound) has a
well-formed non-keyword name, operators carry operator names, there are
no `ConstantExpression` nodes (the default `Parser()` declares no
constants, so a rendered constant would re-parse as a variable), and no
application has an `Operator` as its second operand (the parser's
operator swap reorders exactly those). -/
def WF : Expr → Bool
  | .var _ n => goodName n
  | .const _ => false
  | .oper n => OPS.contains n
  | .bind _ x M => goodName x && WF M
  | .app a b => WF a && WF b && !b.isOper

/-- Re-parsing classifies every variable name afresh: a name matching
`is_indvar` comes back as an `IndVariableExpression` and any other as a
generic `VariableExpression`.  `normInd` is the tree with exactly that
classification; `equals` ignores the distinction. -/
def normInd : Expr → Expr
  | .var _ n => .var (is_indvar n) n
  | .const n => .const n
  | .oper n => .oper n
  | .bind k x M => .bind k x (normInd M)
  | .app a b => .app (normInd a) (normInd b)

/-- The keyword token opening a binder of each kind. -/
def kwOf : BKind → String
  | .lam => "\\"
  | .someE => "some"
  | .allE => "all"

/-- Token-level image of the renderer: `tokP e = (full, cont)` lists the
tokens of `str(e)` and of the continuation form `e.__str__(1)`,
mirroring `renderP` chunk by chunk (the binder prefix contributes its
keyword, the continuation prefix contributes nothing, an application
contributes its parentheses with the first operand's parenthesis tokens
stripped under the same condition as the renderer). -/
def tokP : Expr → List String × List String
  | .var _ n => ([n], [n])
  | .const n => ([n], [n])
  | .oper n => ([n], [n])
  | .app a b =>
      let ta := if a.isApp && !b.isOper then ((tokP a).1.drop 1).dropLast
        else (tokP a).1
      let s := "(" :: (ta ++ ((tokP b).1 ++ [")"]))
      (s, s)
  | .bind k x M =>
      let tail : List String := match M with
        | .bind k' _ _ => if k' = k then (tokP M).2 else "." :: (tokP M).1
        | _ => "." :: (tokP M).1
      (kwOf k :: x :: tail, x :: tail)

/-- The variables of the maximal same-kind binder chain starting at the
body `M` of a binder of kind `k` (the extra variables that the compact
rendering `\x y z.M` displays). -/
def chainVars : BKind → Expr → List String
  | k, .bind k' y N => if k' = k then y :: chainVars k' N else []
  | _, _ => []

/-- The body under the maximal same-kind binder chain. -/
def chainBody : BKind → Expr → Expr
  | k, .bind k' y N => if k' = k then chainBody k' N else .bind k' y N
  | _, M => M

/-- The left spine of an application, flattened: `((M N) P)` becomes
`[M, N, P]`. -/
def spineList : Expr → List Expr
  | .app a b => spineList a ++ [b]
  | e => [e]

/-- What may legally follow a rendered fragment in the processed buffer
without merging into its last token: nothing, or a space. -/
def SepAfter (rest : List Char) : Prop := rest = [] ∨ rest.head? = some ' '

/-- The character-level tail of a rendered binder of kind `k` with body
`M`: everything after the bound variable (continuation of a same-kind
chain, or dot and body). -/
def renderTailOf (k : BKind) (M : Expr) : List Char :=
  match M with
  | .bind k' _ _ => if k' = k then (renderP M).2 else '.' :: (renderP M).1
  | _ => '.' :: (renderP M).1

/-- Token-level image of `renderTailOf`. -/
def tokTailOf (k : BKind) (M : Expr) : List String :=
  match M with
  | .bind k' _ _ => if k' = k then (tokP M).2 else "." :: (tokP M).1
  | _ => "." :: (tokP M).1

/-- The character-level rendering of an application's first operand,
parenthesis-stripped under the renderer's condition. -/
def renderFirstOf (a b : Expr) : List Char :=
  if a.isApp && !b.isOper then (((renderP a).1).drop 1).dropLast
  else (renderP a).1

/-- Token-level image of `renderFirstOf`. -/
def tokFirstOf (a b : Expr) : List String :=
  if a.isApp && !b.isOper then (((tokP a).1).drop 1).dropLast
  else (tokP a).1

/-! ## Properties of the embedded operations -/

theorem Expr.size_pos (t : Expr) : 0 < t.size := by
  cases t <;> simp [Expr.size]

/-- Substituting a variable expression for a variable preserves the node
count of the subject term (alpha conversion renames, it never grows the
tree). -/
theorem replaceF_size_var (f : Nat) :
    ∀ (t : Expr) (w : String) (i : Bool) (z : String) (c : Nat),
      t.size ≤ f → ((replaceF f t w (.var i z) c).1).size = t.size := by
  induction f using Nat.strong_induction_on with
  | _ f ih =>
    intro t w i z c hle
    cases f with
    | zero => exfalso; have := Expr.size_pos t; omega
    | succ f' =>
      cases t with
      | var j n => simp only [replaceF]; split <;> simp [Expr.size]
      | const n => simp [replaceF]
      | oper n => simp [replaceF]
      | app a b =>
        have hs : a.size + b.size + 1 ≤ f' + 1 := by simpa [Expr.size] using hle
        have hpa := Expr.size_pos a
        have hpb := Expr.size_pos b
        have ha := ih f' (by omega) a w i z c (by omega)
        have hb := ih f' (by omega) b w i z
          ((replaceF f' a w (.var i z) c).2) (by omega)
        simp only [replaceF, Expr.size]
        omega
      | bind k x M =>
        have hs : M.size + 1 ≤ f' + 1 := by simpa [Expr.size] using hle
        simp only [replaceF]
        by_cases hxw : x = w
        · simp [hxw, Expr.size]
        · simp only [hxw, if_false]
          by_cases hcap : x ∈ (Expr.var i z).free
          · simp only [hcap, if_true]
            have h1 := ih f' (by omega) M x false
              ("z" ++ toString (counterGet c).1) (counterGet c).2 (by omega)
            have h2 := ih f' (by omega)
              ((replaceF f' M x (.var false ("z" ++ toString (counterGet c).1))
                (counterGet c).2).1) w i z
              ((replaceF f' M x (.var false ("z" ++ toString (counterGet c).1))
                (counterGet c).2).2) (by omega)
            simp only [Expr.size]
            omega
          · simp only [hcap, if_false]
            have h1 := ih f' (by omega) M w i z c (by omega)
            simp only [Expr.size]
            omega

/-- Any fuel at least `Expr.size` of the subject term computes
`replace`. -/
theorem replaceF_eq_replace (f : Nat) :
    ∀ (t : Expr) (v : String) (e : Expr) (c : Nat), t.size ≤ f →
      replaceF f t v e c = replace t v e c := by
  induction f using Nat.strong_induction_on with
  | _ f ih =>
    intro t v e c hle
    cases f with
    | zero => exfalso; have := Expr.size_pos t; omega
    | succ f' =>
      cases t with
      | var j n => simp [replace, replaceF, Expr.size]
      | const n => simp [replace, replaceF, Expr.size]
      | oper n => simp [replace, replaceF, Expr.size]
      | app a b =>
        have hs : a.size + b.size + 1 ≤ f' + 1 := by simpa [Expr.size] using hle
        have hpa := Expr.size_pos a
        have hpb := Expr.size_pos b
        have ha := ih f' (by omega) a v e c (by omega)
        have ha' := ih (a.size + b.size) (by omega) a v e c (by omega)
        have hb := ih f' (by omega) b v e ((replace a v e c).2) (by omega)
        have hb' := ih (a.size + b.size) (by omega) b v e
          ((replace a v e c).2) (by omega)
        show replaceF (f' + 1) (.app a b) v e c
          = replaceF (a.size + b.size + 1) (.app a b) v e c
        simp only [replaceF]
        rw [ha, ha', hb, hb']
      | bind k x M =>
        have hs : M.size + 1 ≤ f' + 1 := by simpa [Expr.size] using hle
        show replaceF (f' + 1) (.bind k x M) v e c
          = replaceF (M.size + 1) (.bind k x M) v e c
        simp only [replaceF]
        by_cases hxv : x = v
        · simp [hxv]
        · simp only [hxv, if_false]
          by_cases hcap : x ∈ e.free
          · simp only [hcap, if_true]
            have h1 := ih f' (by omega) M x
              (.var false ("z" ++ toString (counterGet c).1)) (counterGet c).2
              (by omega)
            have h1' := ih M.size (by omega) M x
              (.var false ("z" ++ toString (counterGet c).1)) (counterGet c).2
              (by omega)
            have hsz : ((replace M x
                (.var false ("z" ++ toString (counterGet c).1))
                (counterGet c).2).1).size = M.size := by
              simpa [replace] using replaceF_size_var M.size M x false
                ("z" ++ toString (counterGet c).1) (counterGet c).2 (by omega)
            have h2 := ih f' (by omega)
              ((replace M x (.var false ("z" ++ toString (counterGet c).1))
                (counterGet c).2).1) v e
              ((replace M x (.var false ("z" ++ toString (counterGet c).1))
                (counterGet c).2).2) (by omega)
            have h2' := ih M.size (by omega)
              ((replace M x (.var false ("z" ++ toString (counterGet c).1))
                (counterGet c).2).1) v e
              ((replace M x (.var false ("z" ++ toString (counterGet c).1))
                (counterGet c).2).2) (by omega)
            rw [h1, h1', h2, h2']
          · simp only [hcap, if_false]
            have h1 := ih f' (by omega) M v e c (by omega)
            have h1' := ih M.size (by omega) M v e c (by omega)
            rw [h1, h1']

/-- `replace` on an application substitutes into `first`, then into
`second` (threading the counter), and rebuilds. -/
theorem replace_app (a b : Expr) (v : String) (e : Expr) (c : Nat) :
    replace (.app a b) v e c =
      (.app (replace a v e c).1 (replace b v e (replace a v e c).2).1,
        (replace b v e (replace a v e c).2).2) := by
  have hpa := Expr.size_pos a
  have hpb := Expr.size_pos b
  show replaceF (Expr.size (.app a b)) (.app a b) v e c = _
  simp only [Expr.size, replaceF]
  rw [replaceF_eq_replace (a.size + b.size) a v e c (by omega),
    replaceF_eq_replace (a.size + b.size) b v e (replace a v e c).2 (by omega)]

/-- `replace` on a binder whose bound variable equals the substituted
variable: the binder shadows it and is returned unchanged. -/
theorem replace_bind_shadow (k : BKind) (x : String) (M : Expr) (e : Expr)
    (c : Nat) : replace (.bind k x M) x e c = (.bind k x M, c) := by
  show replaceF (Expr.size (.bind k x M)) (.bind k x M) x e c = _
  simp [Expr.size, replaceF]

/-- `replace` on a binder in the capture case (`x` free in `e`): a fresh
`z<N>` is minted from the shared counter, the binder is alpha-converted to
it, and substitution proceeds in the renamed body. -/
theorem replace_bind_capture (k : BKind) (x : String) (M : Expr) (v : String)
    (e : Expr) (c : Nat) (hxv : x ≠ v) (hcap : x ∈ e.free) :
    replace (.bind k x M) v e c =
      (.bind k ("z" ++ toString (counterGet c).1)
        (replace (replace M x (.var false ("z" ++ toString (counterGet c).1))
          (counterGet c).2).1 v e
          (replace M x (.var false ("z" ++ toString (counterGet c).1))
            (counterGet c).2).2).1,
        (replace (replace M x (.var false ("z" ++ toString (counterGet c).1))
          (counterGet c).2).1 v e
          (replace M x (.var false ("z" ++ toString (counterGet c).1))
            (counterGet c).2).2).2) := by
  show replaceF (Expr.size (.bind k x M)) (.bind k x M) v e c = _
  simp only [Expr.size, replaceF, hxv, if_false, hcap, if_true]
  have hsz : ((replace M x
      (.var false ("z" ++ toString (counterGet c).1))
      (counterGet c).2).1).size = M.size := by
    simpa [replace] using replaceF_size_var M.size M x false
      ("z" ++ toString (counterGet c).1) (counterGet c).2 (by omega)
  rw [replaceF_eq_replace M.size M x
      (.var false ("z" ++ toString (counterGet c).1)) (counterGet c).2
      (by omega),
    replaceF_eq_replace M.size _ v e _ (by omega)]

/-- `replace` on a binder in the capture-free case substitutes into the
body and keeps the bound variable. -/
theorem replace_bind_plain (k : BKind) (x : String) (M : Expr) (v : String)
    (e : Expr) (c : Nat) (hxv : x ≠ v) (hcap : x ∉ e.free) :
    replace (.bind k x M) v e c =
      (.bind k x (replace M v e c).1, (replace M v e c).2) := by
  show replaceF (Expr.size (.bind k x M)) (.bind k x M) v e c = _
  simp only [Expr.size, replaceF, hxv, if_false, hcap, if_false]
  rw [replaceF_eq_replace M.size M v e c (by omega)]

/-- The alpha-conversion counter never decreases across `replaceF`. -/
theorem replaceF_counter_le (f : Nat) :
    ∀ (t : Expr) (v : String) (e : Expr) (c : Nat), c ≤ (replaceF f t v e c).2 := by
  induction f using Nat.strong_induction_on with
  | _ f ih =>
    intro t v e c
    cases f with
    | zero => simp [replaceF]
    | succ f' =>
      cases t with
      | var j n => simp only [replaceF]; split <;> simp
      | const n => simp [replaceF]
      | oper n => simp [replaceF]
      | app a b =>
        have h1 := ih f' (by omega) a v e c
        have h2 := ih f' (by omega) b v e ((replaceF f' a v e c).2)
        simp only [replaceF]
        omega
      | bind k x M =>
        simp only [replaceF]
        by_cases hxv : x = v
        · simp [hxv]
        · simp only [hxv, if_false]
          by_cases hcap : x ∈ e.free
          · simp only [hcap, if_true]
            have h1 := ih f' (by omega) M x
              (.var false ("z" ++ toString (counterGet c).1)) (counterGet c).2
            have h2 := ih f' (by omega)
              ((replaceF f' M x (.var false ("z" ++ toString (counterGet c).1))
                (counterGet c).2).1) v e
              ((replaceF f' M x (.var false ("z" ++ toString (counterGet c).1))
                (counterGet c).2).2)
            simp only [counterGet] at h1 h2 ⊢
            omega
          · simp only [hcap, if_false]
            have h1 := ih f' (by omega) M v e c
            omega

/-- The alpha-conversion counter never decreases across `replace`. -/
theorem replace_counter_le (t : Expr) (v : String) (e : Expr) (c : Nat) :
    c ≤ (replace t v e c).2 :=
  replaceF_counter_le t.size t v e c

/-- More fuel never changes a successful run of `simplifyF`. -/
theorem simplifyF_mono (f' : Nat) :
    ∀ (f : Nat) (t : Expr) (c : Nat) (r : Expr × Nat), f ≤ f' →
      simplifyF f t c = some r → simplifyF f' t c = some r := by
  induction f' using Nat.strong_induction_on with
  | _ f' ih =>
    intro f t c r hle h
    cases f with
    | zero => simp [simplifyF] at h
    | succ g =>
      cases f' with
      | zero => omega
      | succ g' =>
        have hg : g ≤ g' := by omega
        cases t with
        | var j n => simpa [simplifyF] using h
        | const n => simpa [simplifyF] using h
        | oper n => simpa [simplifyF] using h
        | bind k x M =>
          simp only [simplifyF] at h ⊢
          cases hM : simplifyF g M c with
          | none => rw [hM] at h; simp at h
          | some p =>
            obtain ⟨M', c'⟩ := p
            rw [hM] at h
            rw [ih g' (by omega) g M c (M', c') hg hM]
            exact h
        | app a b =>
          simp only [simplifyF] at h ⊢
          cases hA : simplifyF g a c with
          | none => rw [hA] at h; simp at h
          | some pa =>
            obtain ⟨a', c1⟩ := pa
            rw [hA] at h
            rw [ih g' (by omega) g a c (a', c1) hg hA]
            dsimp only at h ⊢
            cases hB : simplifyF g b c1 with
            | none => rw [hB] at h; simp at h
            | some pb =>
              obtain ⟨b', c2⟩ := pb
              rw [hB] at h
              rw [ih g' (by omega) g b c1 (b', c2) hg hB]
              dsimp only at h ⊢
              cases a' with
              | var j n => exact h
              | const n => exact h
              | oper n => exact h
              | app a1 a2 => exact h
              | bind k x B =>
                cases k with
                | lam => exact ih g' (by omega) g _ _ r hg h
                | someE => exact h
                | allE => exact h

/-- Any fuel at least `Expr.size` of the subject term computes
`skolemiseAux`. -/
theorem skolF_eq_skolemiseAux (f : Nat) :
    ∀ (t : Expr) (bv : List String) (sc ac : Nat), t.size ≤ f →
      skolF f t bv sc ac = skolemiseAux t bv sc ac := by
  induction f using Nat.strong_induction_on with
  | _ f ih =>
    intro t bv sc ac hle
    cases f with
    | zero => exfalso; have := Expr.size_pos t; omega
    | succ f' =>
      cases t with
      | var j n => simp [skolemiseAux, skolF, Expr.size]
      | const n => simp [skolemiseAux, skolF, Expr.size]
      | oper n => simp [skolemiseAux, skolF, Expr.size]
      | app a b =>
        have hs : a.size + b.size + 1 ≤ f' + 1 := by simpa [Expr.size] using hle
        have hpa := Expr.size_pos a
        have hpb := Expr.size_pos b
        have ha := ih f' (by omega) a bv sc ac (by omega)
        have ha' := ih (a.size + b.size) (by omega) a bv sc ac (by omega)
        have hb := ih f' (by omega) b (skolemiseAux a bv sc ac).2.1
          (skolemiseAux a bv sc ac).2.2.1 (skolemiseAux a bv sc ac).2.2.2
          (by omega)
        have hb' := ih (a.size + b.size) (by omega) b
          (skolemiseAux a bv sc ac).2.1 (skolemiseAux a bv sc ac).2.2.1
          (skolemiseAux a bv sc ac).2.2.2 (by omega)
        show skolF (f' + 1) (.app a b) bv sc ac
          = skolF (a.size + b.size + 1) (.app a b) bv sc ac
        simp only [skolF]
        rw [ha, ha', hb, hb']
      | bind k x M =>
        have hs : M.size + 1 ≤ f' + 1 := by simpa [Expr.size] using hle
        show skolF (f' + 1) (.bind k x M) bv sc ac
          = skolF (M.size + 1) (.bind k x M) bv sc ac
        cases k with
        | lam =>
          simp only [skolF]
          rw [ih f' (by omega) M (bv.insert x) sc ac (by omega),
            ih M.size (by omega) M (bv.insert x) sc ac (by omega)]
        | allE =>
          simp only [skolF]
          rw [ih f' (by omega) M (bv.insert x) sc ac (by omega),
            ih M.size (by omega) M (bv.insert x) sc ac (by omega)]
        | someE =>
          simp only [skolF]
          by_cases hx : x ∈ bv
          · simp only [hx, if_true]
            have hsz : ((replace M x
                (.var false ("_s" ++ toString (counterGet sc).1)) ac).1).size
                = M.size := by
              simpa [replace] using replaceF_size_var M.size M x false
                ("_s" ++ toString (counterGet sc).1) ac (by omega)
            rw [ih f' (by omega) _ _ _ _ (by omega),
              ih M.size (by omega) _ _ _ _ (by omega)]
          · simp only [hx, if_false]
            rw [ih f' (by omega) M (bv.insert x) sc ac (by omega),
              ih M.size (by omega) M (bv.insert x) sc ac (by omega)]

/-- Unfolding `skolemiseAux` on a `LambdaExpression`: the body is
skolemised with the bound variable added to a *copy* of the set, the
binder is rebuilt with the same kind and bound variable, and the caller's
set is returned untouched. -/
theorem skolemiseAux_lam (x : String) (M : Expr) (bv : List String)
    (sc ac : Nat) :
    skolemiseAux (.bind .lam x M) bv sc ac =
      (.bind .lam x (skolemiseAux M (bv.insert x) sc ac).1, bv,
        (skolemiseAux M (bv.insert x) sc ac).2.2.1,
        (skolemiseAux M (bv.insert x) sc ac).2.2.2) := by
  show skolF (Expr.size (.bind .lam x M)) (.bind .lam x M) bv sc ac = _
  simp only [Expr.size, skolF]
  rw [skolF_eq_skolemiseAux M.size M (bv.insert x) sc ac (by omega)]

/-- Unfolding `skolemiseAux` on an `AllExpression`: same shape as the
lambda case. -/
theorem skolemiseAux_all (x : String) (M : Expr) (bv : List String)
    (sc ac : Nat) :
    skolemiseAux (.bind .allE x M) bv sc ac =
      (.bind .allE x (skolemiseAux M (bv.insert x) sc ac).1, bv,
        (skolemiseAux M (bv.insert x) sc ac).2.2.1,
        (skolemiseAux M (bv.insert x) sc ac).2.2.2) := by
  show skolF (Expr.size (.bind .allE x M)) (.bind .allE x M) bv sc ac = _
  simp only [Expr.size, skolF]
  rw [skolF_eq_skolemiseAux M.size M (bv.insert x) sc ac (by omega)]

/-- Unfolding `skolemiseAux` on a non-colliding `SomeExpression`: the
existential is dropped, its variable is added to the caller's own set,
and the skolemised body is returned directly. -/
theorem skolemiseAux_some_fresh (x : String) (M : Expr) (bv : List String)
    (sc ac : Nat) (hx : x ∉ bv) :
    skolemiseAux (.bind .someE x M) bv sc ac
      = skolemiseAux M (bv.insert x) sc ac := by
  show skolF (Expr.size (.bind .someE x M)) (.bind .someE x M) bv sc ac = _
  simp only [Expr.size, skolF, hx, if_false]
  exact skolF_eq_skolemiseAux M.size M (bv.insert x) sc ac (by omega)

/-- Unfolding `skolemiseAux` on a colliding `SomeExpression`: a fresh
`_s<N>` is minted from the Skolem counter, substituted for the bound
variable in the body, added to the caller's own set, and the renamed
body's skolemisation is returned directly. -/
theorem skolemiseAux_some_collide (x : String) (M : Expr) (bv : List String)
    (sc ac : Nat) (hx : x ∈ bv) :
    skolemiseAux (.bind .someE x M) bv sc ac
      = skolemiseAux
          (replace M x (.var false ("_s" ++ toString (counterGet sc).1)) ac).1
          (bv.insert ("_s" ++ toString (counterGet sc).1)) (counterGet sc).2
          (replace M x (.var false ("_s" ++ toString (counterGet sc).1)) ac).2 := by
  show skolF (Expr.size (.bind .someE x M)) (.bind .someE x M) bv sc ac = _
  simp only [Expr.size, skolF, hx, if_true]
  have hsz : ((replace M x
      (.var false ("_s" ++ toString (counterGet sc).1)) ac).1).size
      = M.size := by
    simpa [replace] using replaceF_size_var M.size M x false
      ("_s" ++ toString (counterGet sc).1) ac (by omega)
  exact skolF_eq_skolemiseAux M.size _ _ _ _ (by omega)

example : (equals (.bind .lam "x" (.app (.const "P") (.var true "x")))
    (.bind .lam "y" (.app (.const "P") (.var true "y"))) 0).1 = true := by decide

example : (replace (.bind .lam "y" (.app (.var true "x") (.var true "y"))) "x"
    (.var true "y") 0).1
    = .bind .lam "z1" (.app (.var true "y") (.var false "z1")) := by decide

/-- One-step unfolding of `replace` on a constant. -/
theorem replace_const_eq (n v : String) (e : Expr) (c : Nat) :
    replace (.const n) v e c = (.const n, c) := rfl

/-- One-step unfolding of `replace` on a variable. -/
theorem replace_var_eq (i : Bool) (n v : String) (e : Expr) (c : Nat) :
    replace (.var i n) v e c = if n = v then (e, c) else (.var i n, c) := rfl

/-- The lambda branch of `ApplicationExpression.simplify`: if `first`
simplifies to a lambda and `second` simplifies, the application
simplifies to the simplification of the beta contractum. -/
theorem Simplifies_app_beta (a b : Expr) (c : Nat) (x : String)
    (B b' r : Expr) (c1 c2 c4 : Nat)
    (h1 : Simplifies a c (.bind .lam x B) c1) (h2 : Simplifies b c1 b' c2)
    (h3 : Simplifies (replace B x b' c2).1 (replace B x b' c2).2 r c4) :
    Simplifies (.app a b) c r c4 := by
  obtain ⟨f1, h1⟩ := h1
  obtain ⟨f2, h2⟩ := h2
  obtain ⟨f3, h3⟩ := h3
  refine ⟨f1 + f2 + f3 + 1, ?_⟩
  have H1 := simplifyF_mono (f1 + f2 + f3) f1 a c _ (by omega) h1
  have H2 := simplifyF_mono (f1 + f2 + f3) f2 b c1 _ (by omega) h2
  have H3 := simplifyF_mono (f1 + f2 + f3) f3 _ _ _ (by omega) h3
  simp only [simplifyF, H1]
  simp only [H2]
  exact H3

/-! ## The claims -/

/-- **C1** (capture-avoiding substitution).  Generally: substituting
`e` for `v` in a binder whose bound variable `b ≠ v` occurs free in `e`
first alpha-converts the binder to the freshly minted `z<N>` and then
substitutes in the renamed body.  Concretely: `replace` on `\y.(x y)`
with `x := y` yields `\z1.(y z1)`, which `equals` `\z.(y z)` and never
the captured `\y.(y y)`. -/
theorem replace_capture_avoiding :
    (∀ (k : BKind) (b : String) (M : Expr) (v : String) (e : Expr) (c : Nat),
      b ≠ v → b ∈ e.free →
      replace (.bind k b M) v e c =
        (.bind k ("z" ++ toString (counterGet c).1)
          (replace (replace M b
              (.var false ("z" ++ toString (counterGet c).1)) (counterGet c).2).1
            v e
            (replace M b
              (.var false ("z" ++ toString (counterGet c).1)) (counterGet c).2).2).1,
          (replace (replace M b
              (.var false ("z" ++ toString (counterGet c).1)) (counterGet c).2).1
            v e
            (replace M b
              (.var false ("z" ++ toString (counterGet c).1)) (counterGet c).2).2).2)) ∧
    ((replace lamCapture "x" (.var true "y") 0).1
      = .bind .lam "z1" (.app (.var true "y") (.var false "z1"))) ∧
    ((equals (replace lamCapture "x" (.var true "y") 0).1
      (.bind .lam "z" (.app (.var true "y") (.var true "z"))) 0).1 = true) ∧
    ((equals (replace lamCapture "x" (.var true "y") 0).1
      (.bind .lam "y" (.app (.var true "y") (.var true "y"))) 0).1 = false) := by
  refine ⟨?_, by decide, by decide, by decide⟩
  intro k b M v e c hbv hcap
  exact replace_bind_capture k b M v e c hbv hcap

/-- Witness for C1: the general capture branch applied to `\y.(x y)`
with `x := y` at counter `0`. -/
theorem replace_capture_avoiding_witness :
    replace (.bind .lam "y" (.app (.var true "x") (.var true "y"))) "x"
        (.var true "y") 0 =
      (.bind .lam ("z" ++ toString (counterGet 0).1)
        (replace (replace (.app (.var true "x") (.var true "y")) "y"
            (.var false ("z" ++ toString (counterGet 0).1)) (counterGet 0).2).1
          "x" (.var true "y")
          (replace (.app (.var true "x") (.var true "y")) "y"
            (.var false ("z" ++ toString (counterGet 0).1)) (counterGet 0).2).2).1,
        (replace (replace (.app (.var true "x") (.var true "y")) "y"
            (.var false ("z" ++ toString (counterGet 0).1)) (counterGet 0).2).1
          "x" (.var true "y")
          (replace (.app (.var true "x") (.var true "y")) "y"
            (.var false ("z" ++ toString (counterGet 0).1)) (counterGet 0).2).2).2) :=
  replace_capture_avoiding.1 .lam "y" (.app (.var true "x") (.var true "y"))
    "x" (.var true "y") 0 (by decide) (by decide)

/-- **C2** (alpha-equivalence of binder equality).  Generally: `equals`
on two same-kind binders compares bodies directly when the bound
variables coincide, and otherwise compares the first body against the
second body with its bound variable substituted by the first's.
Concretely: `\x.(P x)` equals `\y.(P y)` for every constant `P`, and
`\x.(P x)` does not equal `\x.(Q x)` for distinct constants. -/
theorem equals_binder_alpha :
    (∀ (k : BKind) (x y : String) (M N : Expr) (c : Nat),
      equals (.bind k x M) (.bind k y N) c =
        if x = y then equals M N c
        else equals M (replace N y (.var false x) c).1
          (replace N y (.var false x) c).2) ∧
    (∀ (P : String) (c : Nat),
      (equals (.bind .lam "x" (.app (.const P) (.var true "x")))
        (.bind .lam "y" (.app (.const P) (.var true "y"))) c).1 = true) ∧
    (∀ (P Q : String) (c : Nat), P ≠ Q →
      (equals (.bind .lam "x" (.app (.const P) (.var true "x")))
        (.bind .lam "x" (.app (.const Q) (.var true "x"))) c).1 = false) := by
  refine ⟨fun k x y M N c => by simp [equals], fun P c => ?_, fun P Q c hPQ => ?_⟩
  · simp only [equals]
    rw [replace_app, replace_const_eq, replace_var_eq]
    simp [equals]
  · simp [equals, hPQ]

/-- Witness for C2: the inequality conjunct at `P := "P"`, `Q := "Q"`. -/
theorem equals_binder_alpha_witness :
    (equals (.bind .lam "x" (.app (.const "P") (.var true "x")))
      (.bind .lam "x" (.app (.const "Q") (.var true "x"))) 0).1 = false :=
  equals_binder_alpha.2.2 "P" "Q" 0 (by decide)

/-- **C9** (cross-class equality of variable expressions).  `equals` on
two variable expressions depends only on the names, never on the
`VariableExpression` / `IndVariableExpression` classification; in
particular a generic and an individual variable expression over the same
individual-variable name are equal in both directions. -/
theorem variable_cross_class_equality :
    (∀ (i j : Bool) (n m : String) (c : Nat),
      equals (.var i n) (.var j m) c = (n == m, c)) ∧
    (∀ (n : String) (c : Nat), is_indvar n = true →
      (equals (.var false n) (.var true n) c).1 = true ∧
      (equals (.var true n) (.var false n) c).1 = true) := by
  refine ⟨fun i j n m c => rfl, fun n c _h => ⟨?_, ?_⟩⟩ <;> simp [equals]

/-- Witness for C9: the individual-variable name `"x"`. -/
theorem variable_cross_class_equality_witness :
    (equals (.var false "x") (.var true "x") 0).1 = true ∧
    (equals (.var true "x") (.var false "x") 0).1 = true :=
  variable_cross_class_equality.2 "x" 0 (by decide)

/-- **C3** (beta-reduction on Church numerals).  Generally: when the
simplified functor of an application is a lambda, `simplify` returns the
simplification of `replace(body, bound, simplified argument)`.
Concretely: `simplify (succ zero)` is alpha-equivalent to `one` and
`simplify (succ one)` to `two`. -/
theorem simplify_church :
    (∀ (a b : Expr) (c : Nat) (x : String) (B b' r : Expr) (c1 c2 c4 : Nat),
      Simplifies a c (.bind .lam x B) c1 → Simplifies b c1 b' c2 →
      Simplifies (replace B x b' c2).1 (replace B x b' c2).2 r c4 →
      Simplifies (.app a b) c r c4) ∧
    (∃ r c', Simplifies (.app churchSucc churchZero) 0 r c' ∧
      (equals r churchOne c').1 = true) ∧
    (∃ r c', Simplifies (.app churchSucc churchOne) 0 r c' ∧
      (equals r churchTwo c').1 = true) := by
  refine ⟨fun a b c x B b' r c1 c2 c4 h1 h2 h3 =>
      Simplifies_app_beta a b c x B b' r c1 c2 c4 h1 h2 h3,
    ⟨churchOne, 0, ⟨20, by decide⟩, by decide⟩,
    ⟨churchTwo, 0, ⟨20, by decide⟩, by decide⟩⟩

/-- Witness for C3: one beta step on `(\x.x w)` with all hypotheses
discharged concretely. -/
theorem simplify_church_witness :
    Simplifies (.app (.bind .lam "x" (.var true "x")) (.var false "w")) 0
      (.var false "w") 0 :=
  simplify_church.1 (.bind .lam "x" (.var true "x")) (.var false "w") 0 "x"
    (.var true "x") (.var false "w") (.var false "w") 0 0 0
    ⟨2, by decide⟩ ⟨1, by decide⟩ ⟨1, by decide⟩

/-- **C4** (Skolemization eliminates existentials with unique
variables).  `skolemise(parse("some x.(man x)"))` contains no
existential binder among its subterms; skolemising
`all x.some y.(some y.(loves x y))` renames the colliding inner
existential variable to the fresh `_s1`, so the two introduced variables
differ; lambda and universal binders are rebuilt with the same kind and
bound variable. -/
theorem skolemise_eliminates_existentials :
    (parseStr "some x.(man x)" = some (.ok manTerm)) ∧
    (((skolemise manTerm 0).1.subterms.all fun t => !t.isSomeE) = true) ∧
    ((skolemise nestedSomeTerm 0).1
      = .bind .allE "x" (.app (.app (.var false "loves") (.var true "x"))
          (.var false "_s1"))) ∧
    (((skolemise nestedSomeTerm 0).1.subterms.all fun t => !t.isSomeE) = true) ∧
    (∀ (x : String) (M : Expr) (bv : List String) (sc ac : Nat),
      ∃ M' sc' ac', skolemiseAux (.bind .lam x M) bv sc ac
        = (.bind .lam x M', bv, sc', ac')) ∧
    (∀ (x : String) (M : Expr) (bv : List String) (sc ac : Nat),
      ∃ M' sc' ac', skolemiseAux (.bind .allE x M) bv sc ac
        = (.bind .allE x M', bv, sc', ac')) := by
  refine ⟨by decide, by decide, by decide, by decide,
    fun x M bv sc ac => ⟨_, _, _, skolemiseAux_lam x M bv sc ac⟩,
    fun x M bv sc ac => ⟨_, _, _, skolemiseAux_all x M bv sc ac⟩⟩

/-- **C10** (shared bound-variable set across siblings).  Lambda and
universal binders leave the caller's `bound_vars` set untouched (they add
to a copy); an eliminated existential adds its variable to the very set
passed in, so for an application of two sibling existentials over the
same name, the first keeps `y` and the second is renamed to `_s1` even
though neither encloses the other. -/
theorem skolemise_shared_bound_vars :
    (∀ (x : String) (M : Expr) (bv : List String) (sc ac : Nat),
      (skolemiseAux (.bind .lam x M) bv sc ac).2.1 = bv) ∧
    (∀ (x : String) (M : Expr) (bv : List String) (sc ac : Nat),
      (skolemiseAux (.bind .allE x M) bv sc ac).2.1 = bv) ∧
    (∀ (x : String) (M : Expr) (bv : List String) (sc ac : Nat), x ∉ bv →
      skolemiseAux (.bind .someE x M) bv sc ac
        = skolemiseAux M (bv.insert x) sc ac) ∧
    ((skolemise siblingSomeTerm 0).1
      = .app (.app (.var false "P") (.var true "y"))
          (.app (.var false "Q") (.var false "_s1"))) := by
  refine ⟨fun x M bv sc ac => by rw [skolemiseAux_lam],
    fun x M bv sc ac => by rw [skolemiseAux_all],
    fun x M bv sc ac h => skolemiseAux_some_fresh x M bv sc ac h,
    by decide⟩

/-- Witness for C10: the existential conjunct at `some y.(P y)` against
the empty set. -/
theorem skolemise_shared_bound_vars_witness :
    skolemiseAux (.bind .someE "y" (.app (.var false "P") (.var true "y")))
        [] 0 0
      = skolemiseAux (.app (.var false "P") (.var true "y"))
          (List.insert "y" []) 0 0 :=
  skolemise_shared_bound_vars.2.2.1 "y"
    (.app (.var false "P") (.var true "y")) [] 0 0 (by decide)

/-- Counterexample to **C6** as stated: parsing `"\\x"` raises
`Error("end of stream")` (the peek for further bound variables hits the
exhausted buffer before the dot check), not the unexpected-token
error. -/
theorem parse_lambda_no_dot_counterexample :
    parseStr "\\x" = some (.error .endOfStream) ∧
    isUnexpectedTok (parseStr "\\x") = false :=
  ⟨by decide, by decide⟩

/-- **C6 amended** (parse failure kinds).  Parsing `"\\x"` fails with
end-of-stream (the variable-list peek exhausts the buffer before the dot
check); parsing `""` fails with end-of-stream; a binder whose variable
list is followed by a present non-dot token, as in `"\\x("`, fails with
unexpected-token.  In each case no partial expression is returned. -/
theorem parse_failure_kinds :
    parseStr "\\x" = some (.error .endOfStream) ∧
    parseStr "" = some (.error .endOfStream) ∧
    parseStr "\\x(" = some (.error (.unexpectedToken "(")) :=
  ⟨by decide, by decide, by decide⟩

/-- Counterexample to **C7** as stated: `replace` is *not* a function of
`(term, variable, expression)` alone — the minted bound name depends on
the hidden class-level counter state, and on `\y.(x z1)` (whose body
contains a free `z1`) the results at counter states `0` and `1` are not
even alpha-equivalent: the state-0 run captures the free `z1`. -/
theorem replace_counter_dependence :
    (replace lamCollide "x" (.var true "y") 0).1
      ≠ (replace lamCollide "x" (.var true "y") 1).1 ∧
    (equals (replace lamCollide "x" (.var true "y") 1).1
      (replace lamCollide "x" (.var true "y") 0).1 5).1 = false :=
  ⟨by decide, by decide⟩

/-- **C7 amended** (determinism given the counter).  The fresh-name
counter is class-level shared mutable state, so `replace` is a
deterministic function of its arguments *together with* the starting
counter value: equal inputs and equal counter states give equal results,
and the counter value never decreases. -/
theorem replace_deterministic_given_counter :
    (∀ (t : Expr) (v : String) (e : Expr) (c₁ c₂ : Nat), c₁ = c₂ →
      replace t v e c₁ = replace t v e c₂) ∧
    (∀ (t : Expr) (v : String) (e : Expr) (c : Nat),
      c ≤ (replace t v e c).2) :=
  ⟨fun t v e c₁ c₂ h => by rw [h], replace_counter_le⟩

/-- Witness for C7 (amended): reproducibility of the capture case at
counter state `0`. -/
theorem replace_deterministic_given_counter_witness :
    replace lamCapture "x" (.var true "y") 0
      = replace lamCapture "x" (.var true "y") 0 :=
  replace_deterministic_given_counter.1 lamCapture "x" (.var true "y") 0 0 rfl

/-- **C8** (operator swap applied exactly once, at the outermost pair).
`(a and b)` parses with the operator swapped into functor position;
`(a b and c)` leaves the later-position operator where the left fold
puts it; `(a and b c)` swaps at the outermost pair and then folds the
remaining operands left-associatively with no further swapping. -/
theorem parser_operator_swap_once :
    parseStr "(a and b)"
      = some (.ok (.app (.app (.oper "and") (.var false "a"))
          (.var false "b"))) ∧
    parseStr "(a b and c)"
      = some (.ok (.app (.app (.app (.var false "a") (.var false "b"))
          (.oper "and")) (.var false "c"))) ∧
    parseStr "(a and b c)"
      = some (.ok (.app (.app (.app (.oper "and") (.var false "a"))
          (.var false "b")) (.var false "c"))) :=
  ⟨by decide, by decide, by decide⟩

/-- `equals` ignores the individual-variable classification: every
expression equals its re-classified form, leaving the counter alone. -/
theorem equals_normInd (e : Expr) : ∀ c, equals e (normInd e) c = (true, c) := by
  induction e with
  | var i n => intro c; simp [normInd, equals]
  | const n => intro c; simp [normInd, equals]
  | oper n => intro c; simp [normInd, equals]
  | bind k x M ih => intro c; simp [normInd, equals, ih c]
  | app a b iha ihb => intro c; simp [normInd, equals, iha c, ihb c]

/-- Counterexample to **C5** as stated: the grammar (and the parser
itself, from `"(a b and)"`) produces `((a b) and)`, an application whose
second operand is an operator; its rendering `"((a b) and)"` re-parses
with the operator swap applied, yielding `(and (a b))`, which is not
alpha-equivalent to the original in either direction of `equals`. -/
theorem roundtrip_operator_counterexample :
    parseStr "(a b and)" = some (.ok opSecondTerm) ∧
    render opSecondTerm = "((a b) and)" ∧
    parseStr (render opSecondTerm)
      = some (.ok (.app (.oper "and")
          (.app (.var false "a") (.var false "b")))) ∧
    (equals (.app (.oper "and") (.app (.var false "a") (.var false "b")))
      opSecondTerm 0).1 = false ∧
    (equals opSecondTerm
      (.app (.oper "and") (.app (.var false "a") (.var false "b"))) 0).1
      = false :=
  ⟨by decide, by decide, by decide, by decide, by decide⟩

/-- `process` distributes over concatenation (it is a character-wise
map-expansion). -/
theorem processC_append (a b : List Char) :
    processC (a ++ b) = processC a ++ processC b := by
  induction a with
  | nil => rfl
  | cons c cs ih =>
      simp only [List.cons_append, processC]
      split
      · simp [ih]
      · split <;> simp [ih]

/-- `process` leaves a special-character-free fragment unchanged. -/
theorem processC_nonspecial (a : List Char)
    (h : a.all (fun c => !specialChar c) = true) : processC a = a := by
  induction a with
  | nil => rfl
  | cons c cs ih =>
      simp only [List.all_cons, Bool.and_eq_true] at h
      have hc : specialChar c = false := by simpa using h.1
      simp only [specialChar, Bool.or_eq_false_iff, decide_eq_false_iff_not] at hc
      obtain ⟨⟨⟨⟨⟨⟨h1, h2⟩, h3⟩, h4⟩, h5⟩, h6⟩, h7⟩ := hc
      simp [processC, h1, h2, h3, h4, h5, h6, h7, ih h.2]

/-- The tokenizer passes over a space-free fragment, accumulating it. -/
theorem wordsAux_nonspace (cs : List Char) (h : ∀ c ∈ cs, c ≠ ' ') :
    ∀ (rest acc : List Char),
      wordsAux (cs ++ rest) acc = wordsAux rest (cs.reverse ++ acc) := by
  induction cs with
  | nil => intro rest acc; simp
  | cons c cs ih =>
      intro rest acc
      have hc : c ≠ ' ' := h c (by simp)
      simp only [List.cons_append, wordsAux, hc, if_false, List.append_eq]
      rw [ih (fun x hx => h x (by simp [hx])) rest (c :: acc)]
      simp

/-- A nonempty space-free fragment followed by a separator is one
token. -/
theorem wordsAux_token (cs : List Char) (hne : cs ≠ [])
    (h : ∀ c ∈ cs, c ≠ ' ') (rest : List Char) (hsep : SepAfter rest) :
    wordsAux (cs ++ rest) [] = cs :: wordsAux rest [] := by
  rw [wordsAux_nonspace cs h rest []]
  rcases hsep with h1 | h1
  · subst h1
    simp [wordsAux, hne]
  · cases rest with
    | nil => simp at h1
    | cons r rest' =>
        have hr : r = ' ' := by simpa using h1
        subst hr
        have hacc : cs.reverse ++ ([] : List Char) ≠ [] := by simpa using hne
        simp [wordsAux, hacc, hne]

/-- Skipping a leading space. -/
theorem wordsAux_space (l : List Char) :
    wordsAux (' ' :: l) [] = wordsAux l [] := by
  simp [wordsAux]

/-- A name with good token characters: its data is nonempty and
space-free. -/
theorem tokChars_spec (s : String) (h : tokChars s = true) :
    s.data ≠ [] ∧ (∀ c ∈ s.data, c ≠ ' ') ∧
      s.data.all (fun c => !specialChar c) = true := by
  simp only [tokChars, Bool.and_eq_true] at h
  refine ⟨by simpa using h.1, fun c hc => ?_, h.2⟩
  have := List.all_eq_true.mp h.2 c hc
  simp only [specialChar, Bool.not_eq_true', Bool.or_eq_false_iff,
    decide_eq_false_iff_not] at this
  exact this.1.1.1.1.1.1

/-- Operator names are single good tokens. -/
theorem ops_tokChars (n : String) (h : OPS.contains n = true) :
    tokChars n = true := by
  have := List.mem_of_elem_eq_true h
  simp only [OPS, List.mem_cons, List.not_mem_nil, or_false] at this
  rcases this with h | h | h | h | h | h <;> subst h <;> decide

/-- `renderP` on a binder, via `renderTailOf`. -/
theorem renderP_bind (k : BKind) (x : String) (M : Expr) :
    renderP (.bind k x M)
      = (prefixOf k ++ x.data ++ renderTailOf k M,
          ' ' :: (x.data ++ renderTailOf k M)) := by
  cases M <;> rfl

/-- `tokP` on a binder, via `tokTailOf`. -/
theorem tokP_bind (k : BKind) (x : String) (M : Expr) :
    tokP (.bind k x M)
      = (kwOf k :: x :: tokTailOf k M, x :: tokTailOf k M) := by
  cases M <;> rfl

/-- `renderP` on an application, via `renderFirstOf`. -/
theorem renderP_app (a b : Expr) :
    renderP (.app a b)
      = ('(' :: (renderFirstOf a b ++ ' ' :: ((renderP b).1 ++ [')'])),
          '(' :: (renderFirstOf a b ++ ' ' :: ((renderP b).1 ++ [')']))) := rfl

/-- `tokP` on an application, via `tokFirstOf`. -/
theorem tokP_app (a b : Expr) :
    tokP (.app a b)
      = ("(" :: (tokFirstOf a b ++ ((tokP b).1 ++ [")"])),
          "(" :: (tokFirstOf a b ++ ((tokP b).1 ++ [")"]))) := rfl

/-- Stripping the rendered application's parentheses, character level. -/
theorem renderP_app_strip (a b : Expr) :
    (((renderP (.app a b)).1).drop 1).dropLast
      = renderFirstOf a b ++ (' ' :: (renderP b).1) := by
  rw [renderP_app]
  show (renderFirstOf a b ++ (' ' :: ((renderP b).1 ++ [')']))).dropLast = _
  rw [show renderFirstOf a b ++ (' ' :: ((renderP b).1 ++ [')']))
      = (renderFirstOf a b ++ (' ' :: (renderP b).1)) ++ [')'] by simp,
    List.dropLast_concat]

/-- Stripping the rendered application's parentheses, token level. -/
theorem tokP_app_strip (a b : Expr) :
    (((tokP (.app a b)).1).drop 1).dropLast
      = tokFirstOf a b ++ (tokP b).1 := by
  rw [tokP_app]
  show (tokFirstOf a b ++ ((tokP b).1 ++ [")"])).dropLast = _
  rw [show tokFirstOf a b ++ ((tokP b).1 ++ [")"])
      = (tokFirstOf a b ++ (tokP b).1) ++ [")"] by simp,
    List.dropLast_concat]

/-- A fragment beginning with a space is a legal separated remainder. -/
theorem sepAfter_cons_space (l : List Char) : SepAfter (' ' :: l) :=
  Or.inr rfl

/-- A single structural character followed by a space is one token. -/
theorem wordsAux_struct (c : Char) (hc : c ≠ ' ') (tl : List Char) :
    wordsAux (c :: ' ' :: tl) [] = [c] :: wordsAux tl [] := by
  rw [show (c :: ' ' :: tl) = [c] ++ (' ' :: tl) from rfl,
    wordsAux_token [c] (by simp) (by simpa using hc) (' ' :: tl)
      (Or.inr rfl), wordsAux_space]

/-- Tokenizing the rendering: the processed rendering of a well-formed
expression, followed by a separated remainder, tokenizes into its
token-level image (`tokP`) followed by the remainder's tokens.  The three
conjuncts cover `str(e)`, the binder continuation form `e.__str__(1)`,
and the parenthesis-stripped form of an application. -/
theorem words_renderP (e : Expr) : WF e = true →
    (∀ rest, SepAfter rest →
      wordsAux (processC ((renderP e).1) ++ rest) []
        = ((tokP e).1).map String.data ++ wordsAux rest []) ∧
    (∀ rest, SepAfter rest →
      wordsAux (processC ((renderP e).2) ++ rest) []
        = ((tokP e).2).map String.data ++ wordsAux rest []) ∧
    (e.isApp = true → ∀ rest, SepAfter rest →
      wordsAux (processC ((((renderP e).1).drop 1).dropLast) ++ rest) []
        = (((((tokP e).1).drop 1).dropLast).map String.data)
            ++ wordsAux rest []) := by
  induction e with
  | var i n =>
      intro hwf
      simp only [WF, goodName, Bool.and_eq_true] at hwf
      obtain ⟨h1, h2, h3⟩ := tokChars_spec n hwf.1
      refine ⟨?_, ?_, by intro h; simp [Expr.isApp] at h⟩ <;>
        · intro rest hsep
          show wordsAux (processC n.data ++ rest) [] = _
          rw [processC_nonspecial n.data h3,
            wordsAux_token n.data h1 h2 rest hsep]
          rfl
  | const n => intro hwf; simp [WF] at hwf
  | oper n =>
      intro hwf
      simp only [WF] at hwf
      obtain ⟨h1, h2, h3⟩ := tokChars_spec n (ops_tokChars n hwf)
      refine ⟨?_, ?_, by intro h; simp [Expr.isApp] at h⟩ <;>
        · intro rest hsep
          show wordsAux (processC n.data ++ rest) [] = _
          rw [processC_nonspecial n.data h3,
            wordsAux_token n.data h1 h2 rest hsep]
          rfl
  | bind k x M ih =>
      intro hwf
      simp only [WF, Bool.and_eq_true] at hwf
      obtain ⟨hx, hM⟩ := hwf
      have hxg := hx
      simp only [goodName, Bool.and_eq_true] at hxg
      obtain ⟨hx1, hx2, hx3⟩ := tokChars_spec x hxg.1
      obtain ⟨ih1, ih2, _⟩ := ih hM
      have hdot : ∀ rest, SepAfter rest →
          wordsAux (processC ('.' :: (renderP M).1) ++ rest) []
            = ("." :: (tokP M).1).map String.data ++ wordsAux rest [] := by
        intro rest hsep
        rw [show processC ('.' :: (renderP M).1) ++ rest
            = ' ' :: ('.' :: ' ' :: (processC ((renderP M).1) ++ rest)) by
          show (' ' :: '.' :: ' ' :: processC ((renderP M).1)) ++ rest = _
          simp]
        rw [wordsAux_space, wordsAux_struct '.' (by decide), ih1 rest hsep]
        rfl
      have htail : ∀ rest, SepAfter rest →
          SepAfter (processC (renderTailOf k M) ++ rest) ∧
          wordsAux (processC (renderTailOf k M) ++ rest) []
            = (tokTailOf k M).map String.data ++ wordsAux rest [] := by
        intro rest hsep
        cases M with
        | bind k' y N =>
            by_cases hk : k' = k
            · constructor
              · rw [show renderTailOf k (.bind k' y N)
                    = (renderP (.bind k' y N)).2 by simp [renderTailOf, hk]]
                rw [renderP_bind]
                exact Or.inr rfl
              · rw [show renderTailOf k (.bind k' y N)
                    = (renderP (.bind k' y N)).2 by simp [renderTailOf, hk],
                  show tokTailOf k (.bind k' y N)
                    = (tokP (.bind k' y N)).2 by simp [tokTailOf, hk]]
                exact ih2 rest hsep
            · constructor
              · rw [show renderTailOf k (.bind k' y N)
                    = '.' :: (renderP (.bind k' y N)).1 by
                  simp [renderTailOf, hk]]
                exact Or.inr rfl
              · rw [show renderTailOf k (.bind k' y N)
                    = '.' :: (renderP (.bind k' y N)).1 by
                  simp [renderTailOf, hk],
                  show tokTailOf k (.bind k' y N)
                    = "." :: (tokP (.bind k' y N)).1 by simp [tokTailOf, hk]]
                exact hdot rest hsep
        | var i n => exact ⟨Or.inr rfl, hdot rest hsep⟩
        | const n => exact ⟨Or.inr rfl, hdot rest hsep⟩
        | oper n => exact ⟨Or.inr rfl, hdot rest hsep⟩
        | app a b => exact ⟨Or.inr rfl, hdot rest hsep⟩
      refine ⟨?_, ?_, by intro h; simp [Expr.isApp] at h⟩
      · intro rest hsep
        rw [renderP_bind, tokP_bind]
        show wordsAux (processC ((prefixOf k ++ x.data) ++ renderTailOf k M)
            ++ rest) [] = _
        rw [processC_append, processC_append, processC_nonspecial x.data hx3]
        obtain ⟨hsep', hw⟩ := htail rest hsep
        cases k with
        | lam =>
            rw [show ((processC (prefixOf .lam) ++ x.data)
                  ++ processC (renderTailOf .lam M)) ++ rest
                = ' ' :: ('\\' :: ' ' ::
                    (x.data ++ (processC (renderTailOf .lam M) ++ rest))) by
              show (([' ', '\\', ' '] ++ x.data)
                  ++ processC (renderTailOf .lam M)) ++ rest = _
              simp]
            rw [wordsAux_space, wordsAux_struct '\\' (by decide),
              wordsAux_token x.data hx1 hx2 _ hsep', hw]
            rfl
        | someE =>
            rw [show ((processC (prefixOf .someE) ++ x.data)
                  ++ processC (renderTailOf .someE M)) ++ rest
                = "some".data ++ (' ' ::
                    (x.data ++ (processC (renderTailOf .someE M) ++ rest))) by
              show ((("some".data ++ [' ']) ++ x.data)
                  ++ processC (renderTailOf .someE M)) ++ rest = _
              simp]
            rw [wordsAux_token "some".data (by decide) (by decide) _
                (sepAfter_cons_space _),
              wordsAux_space, wordsAux_token x.data hx1 hx2 _ hsep', hw]
            rfl
        | allE =>
            rw [show ((processC (prefixOf .allE) ++ x.data)
                  ++ processC (renderTailOf .allE M)) ++ rest
                = "all".data ++ (' ' ::
                    (x.data ++ (processC (renderTailOf .allE M) ++ rest))) by
              show ((("all".data ++ [' ']) ++ x.data)
                  ++ processC (renderTailOf .allE M)) ++ rest = _
              simp]
            rw [wordsAux_token "all".data (by decide) (by decide) _
                (sepAfter_cons_space _),
              wordsAux_space, wordsAux_token x.data hx1 hx2 _ hsep', hw]
            rfl
      · intro rest hsep
        rw [renderP_bind, tokP_bind]
        show wordsAux (processC (' ' :: (x.data ++ renderTailOf k M))
            ++ rest) [] = _
        obtain ⟨hsep', hw⟩ := htail rest hsep
        rw [show processC (' ' :: (x.data ++ renderTailOf k M)) ++ rest
            = ' ' :: (processC (x.data ++ renderTailOf k M) ++ rest) from rfl,
          wordsAux_space, processC_append, processC_nonspecial x.data hx3,
          List.append_assoc, wordsAux_token x.data hx1 hx2 _ hsep', hw]
        rfl
  | app a b iha ihb =>
      intro hwf
      simp only [WF, Bool.and_eq_true, Bool.not_eq_true'] at hwf
      obtain ⟨⟨ha, hb⟩, hbop⟩ := hwf
      obtain ⟨iha1, _, iha3⟩ := iha ha
      obtain ⟨ihb1, _, _⟩ := ihb hb
      have hfirst : ∀ rest, SepAfter rest →
          wordsAux (processC (renderFirstOf a b) ++ rest) []
            = (tokFirstOf a b).map String.data ++ wordsAux rest [] := by
        intro rest hsep
        cases happ : a.isApp with
        | true =>
            rw [show renderFirstOf a b = (((renderP a).1).drop 1).dropLast by
                simp [renderFirstOf, happ, hbop],
              show tokFirstOf a b = (((tokP a).1).drop 1).dropLast by
                simp [tokFirstOf, happ, hbop]]
            exact iha3 happ rest hsep
        | false =>
            rw [show renderFirstOf a b = (renderP a).1 by
                simp [renderFirstOf, happ],
              show tokFirstOf a b = (tokP a).1 by simp [tokFirstOf, happ]]
            exact iha1 rest hsep
      have hmain : ∀ rest, SepAfter rest →
          wordsAux (processC ((renderP (.app a b)).1) ++ rest) []
            = ((tokP (.app a b)).1).map String.data ++ wordsAux rest [] := by
        intro rest hsep
        rw [renderP_app, tokP_app]
        rw [show processC ('(' :: (renderFirstOf a b
              ++ ' ' :: ((renderP b).1 ++ [')']))) ++ rest
            = ' ' :: ('(' :: ' ' :: (processC (renderFirstOf a b)
                ++ (' ' :: (processC ((renderP b).1)
                  ++ (' ' :: ')' :: ' ' :: rest))))) by
          show ' ' :: '(' :: ' ' :: processC (renderFirstOf a b
              ++ ' ' :: ((renderP b).1 ++ [')'])) ++ rest = _
          rw [processC_append]
          rw [show processC (' ' :: ((renderP b).1 ++ [')']))
              = ' ' :: (processC ((renderP b).1) ++ [' ', ')', ' ']) by
            show ' ' :: processC ((renderP b).1 ++ [')']) = _
            rw [processC_append]
            rfl]
          simp]
        rw [wordsAux_space, wordsAux_struct '(' (by decide),
          hfirst (' ' :: (processC ((renderP b).1)
            ++ (' ' :: ')' :: ' ' :: rest))) (sepAfter_cons_space _),
          wordsAux_space,
          ihb1 (' ' :: ')' :: ' ' :: rest) (sepAfter_cons_space _),
          wordsAux_space, wordsAux_struct ')' (by decide)]
        simp
      refine ⟨hmain, hmain, fun _ => ?_⟩
      intro rest hsep
      rw [renderP_app_strip, tokP_app_strip]
      rw [processC_append,
        show processC (' ' :: (renderP b).1)
          = ' ' :: processC ((renderP b).1) from rfl,
        List.append_assoc, List.cons_append]
      rw [hfirst (' ' :: (processC ((renderP b).1) ++ rest))
          (sepAfter_cons_space _),
        wordsAux_space, ihb1 rest hsep]
      simp

/-- Tokenizing a full rendering: for a well-formed expression the token
stream of `str(e)` is exactly the token-level image `tokP`. -/
theorem tokens_render (e : Expr) (h : WF e = true) :
    tokens ((render e).data) = (tokP e).1 := by
  have hw := (words_renderP e h).1 [] (Or.inl rfl)
  simp only [List.append_nil] at hw
  show (wordsAux (processC ((renderP e).1)) []).map (fun l => (⟨l⟩ : String))
    = (tokP e).1
  rw [hw, show wordsAux [] [] = ([] : List (List Char)) from rfl,
    List.append_nil, List.map_map,
    show ((fun l => (⟨l⟩ : String)) ∘ String.data) = id from
      funext fun t => rfl, List.map_id]

/-- A good name is none of the structural or keyword tokens and counts as
a variable token. -/
theorem goodName_spec (n : String) (h : goodName n = true) :
    n ≠ "\\" ∧ n ≠ "some" ∧ n ≠ "all" ∧ n ≠ "(" ∧ n ≠ ")" ∧ n ≠ "." ∧
      OPS.contains n = false ∧ isVariableTok n = true := by
  simp only [goodName, Bool.and_eq_true] at h
  obtain ⟨htc, hkw⟩ := h
  have hsp := (tokChars_spec n htc).2.2
  have hbs : n ≠ "\\" := by rintro rfl; exact absurd hsp (by decide)
  have hop : n ≠ "(" := by rintro rfl; exact absurd hsp (by decide)
  have hcp : n ≠ ")" := by rintro rfl; exact absurd hsp (by decide)
  have hdt : n ≠ "." := by rintro rfl; exact absurd hsp (by decide)
  have hsm : n ≠ "some" := by rintro rfl; exact absurd hkw (by decide)
  have hal : n ≠ "all" := by rintro rfl; exact absurd hkw (by decide)
  have hkw' : ¬ n ∈ ["some", "all"] ++ OPS := by
    intro hmem
    rw [show ((["some", "all"] ++ OPS).contains n)
        = ((["some", "all"] ++ OPS).elem n) from rfl,
      List.elem_eq_true_of_mem hmem] at hkw
    exact absurd hkw (by decide)
  have hops : OPS.contains n = false := by
    cases hc : OPS.contains n
    · rfl
    · exact absurd
        (List.mem_append_right _ (List.mem_of_elem_eq_true hc)) hkw'
  refine ⟨hbs, hsm, hal, hop, hcp, hdt, hops, ?_⟩
  simp only [isVariableTok, Bool.not_eq_true']
  cases hc : (["\\", "some", "all", ".", "(", ")", "="] ++ OPS).contains n
  · rfl
  · exfalso
    rcases List.mem_append.mp (List.mem_of_elem_eq_true hc) with h7 | hO
    · simp only [List.mem_cons, List.not_mem_nil, or_false] at h7
      rcases h7 with h | h | h | h | h | h | h
      · exact hbs h
      · exact hsm h
      · exact hal h
      · exact hdt h
      · exact hop h
      · exact hcp h
      · subst h; exact absurd hops (by decide)
    · exact absurd (List.mem_append_right ["some", "all"] hO) hkw'

/-- Every token list of `tokP` is nonempty. -/
theorem tokP_length_pos (e : Expr) : 1 ≤ (tokP e).1.length := by
  cases e with
  | var i n => simp [tokP]
  | const n => simp [tokP]
  | oper n => simp [tokP]
  | bind k x M => rw [tokP_bind]; simp
  | app a b => rw [tokP_app]; simp

/-- The head token of a well-formed expression's rendering is never the
closing parenthesis. -/
theorem tokP_head_ne_close (e : Expr) (h : WF e = true) :
    ∃ t ts, (tokP e).1 = t :: ts ∧ t ≠ ")" := by
  cases e with
  | var i n =>
      refine ⟨n, [], rfl, ?_⟩
      exact (goodName_spec n (by simpa [WF] using h)).2.2.2.2.1
  | const n => simp [WF] at h
  | oper n =>
      refine ⟨n, [], rfl, ?_⟩
      simp only [WF] at h
      have := List.mem_of_elem_eq_true h
      simp only [OPS, List.mem_cons, List.not_mem_nil, or_false] at this
      rcases this with h | h | h | h | h | h <;> subst h <;> decide
  | bind k x M =>
      rw [tokP_bind]
      exact ⟨kwOf k, _, rfl, by cases k <;> decide⟩
  | app a b => rw [tokP_app]; exact ⟨"(", _, rfl, by decide⟩

/-- The bound-variable loop collects exactly the variable tokens before
the dot. -/
theorem collectVars_vars (vs : List String)
    (h : ∀ v ∈ vs, isVariableTok v = true) (rest : List String) :
    collectVars (vs ++ "." :: rest) = .ok (vs, "." :: rest) := by
  induction vs with
  | nil => simp [collectVars, show isVariableTok "." = false by decide]
  | cons v vs ih =>
      have hv := h v (by simp)
      simp [collectVars, hv, ih (fun x hx => h x (by simp [hx]))]

/-- The binder tail tokens are the chain variables, the dot, and the
chain body's tokens. -/
theorem tokTailOf_chain (M : Expr) :
    ∀ k', tokTailOf k' M = chainVars k' M ++ "." :: (tokP (chainBody k' M)).1 := by
  induction M with
  | var i n => intro k'; rfl
  | const n => intro k'; rfl
  | oper n => intro k'; rfl
  | app a b iha ihb => intro k'; rfl
  | bind kk y N ihN =>
      intro k'
      by_cases hk : kk = k'
      · simp only [tokTailOf, chainVars, chainBody, hk, if_true]
        rw [tokP_bind]
        simp [ihN k']
      · simp [tokTailOf, chainVars, chainBody, hk]

/-- Chain variables inherit well-formed names. -/
theorem chainVars_good (M : Expr) (h : WF M = true) :
    ∀ k v, v ∈ chainVars k M → goodName v = true := by
  induction M with
  | var i n => intro k v hv; simp [chainVars] at hv
  | const n => intro k v hv; simp [chainVars] at hv
  | oper n => intro k v hv; simp [chainVars] at hv
  | app a b iha ihb => intro k v hv; simp [chainVars] at hv
  | bind kk y N ihN =>
      intro k v hv
      simp only [WF, Bool.and_eq_true] at h
      by_cases hk : kk = k
      · simp only [chainVars, hk, if_true, List.mem_cons] at hv
        rcases hv with hv | hv
        · subst hv; exact h.1
        · exact ihN h.2 k v hv
      · simp [chainVars, hk] at hv

/-- The chain body of a well-formed binder body is well-formed. -/
theorem chainBody_WF (M : Expr) (h : WF M = true) :
    ∀ k, WF (chainBody k M) = true := by
  induction M with
  | var i n => intro k; exact h
  | const n => intro k; exact h
  | oper n => intro k; exact h
  | app a b iha ihb => intro k; exact h
  | bind kk y N ihN =>
      intro k
      by_cases hk : kk = k
      · simp only [chainBody, hk, if_true]
        simp only [WF, Bool.and_eq_true] at h
        exact ihN h.2 k
      · simpa [chainBody, hk] using h

/-- The chain body is no larger than the body it comes from. -/
theorem chainBody_size (M : Expr) : ∀ k, (chainBody k M).size ≤ M.size := by
  induction M with
  | var i n => intro k; exact Nat.le_refl _
  | const n => intro k; exact Nat.le_refl _
  | oper n => intro k; exact Nat.le_refl _
  | app a b iha ihb => intro k; exact Nat.le_refl _
  | bind kk y N ihN =>
      intro k
      by_cases hk : kk = k
      · simp only [chainBody, hk, if_true]
        calc (chainBody k N).size ≤ N.size := ihN k
        _ ≤ (Expr.bind kk y N).size := by simp [Expr.size]
      · simp [chainBody, hk]

/-- Refolding the collected chain: the parser's right fold of the chain
variables over the parsed body rebuilds the body, re-classified. -/
theorem buildBinder_chain (M : Expr) :
    ∀ k, buildBinder k (chainVars k M) (normInd (chainBody k M))
      = normInd M := by
  induction M with
  | var i n => intro k; rfl
  | const n => intro k; rfl
  | oper n => intro k; rfl
  | app a b iha ihb => intro k; rfl
  | bind kk y N ihN =>
      intro k
      by_cases hk : kk = k
      · subst hk
        simp only [chainVars, chainBody, if_true, buildBinder]
        rw [ihN kk]
        rfl
      · simp [chainVars, chainBody, hk, buildBinder, normInd]

/-- A non-application is its own spine. -/
theorem spineList_non_app (e : Expr) (h : e.isApp = false) :
    spineList e = [e] := by
  cases e with
  | app a b => simp [Expr.isApp] at h
  | var i n => rfl
  | const n => rfl
  | oper n => rfl
  | bind k x M => rfl

/-- The stripped token list of a well-formed application is the
concatenation of its spine elements' token lists. -/
theorem spine_tokens (e : Expr) : WF e = true → e.isApp = true →
    ((tokP e).1.drop 1).dropLast
      = (spineList e).flatMap (fun x => (tokP x).1) := by
  induction e with
  | var i n => intro _ h; simp [Expr.isApp] at h
  | const n => intro _ h; simp [Expr.isApp] at h
  | oper n => intro _ h; simp [Expr.isApp] at h
  | bind k x M _ => intro _ h; simp [Expr.isApp] at h
  | app a b iha _ =>
      intro hwf _
      simp only [WF, Bool.and_eq_true, Bool.not_eq_true'] at hwf
      obtain ⟨⟨ha, _⟩, hbop⟩ := hwf
      rw [tokP_app_strip,
        show spineList (.app a b) = spineList a ++ [b] from rfl,
        List.flatMap_append]
      cases happ : a.isApp with
      | true =>
          rw [show tokFirstOf a b = (((tokP a).1).drop 1).dropLast by
              simp [tokFirstOf, happ, hbop],
            iha ha happ]
          simp
      | false =>
          rw [show tokFirstOf a b = (tokP a).1 by simp [tokFirstOf, happ],
            spineList_non_app a happ]
          simp

/-- Every spine is nonempty. -/
theorem spineList_cons (e : Expr) : ∃ x xs, spineList e = x :: xs := by
  induction e with
  | app a b iha _ =>
      obtain ⟨x, xs, h⟩ := iha
      exact ⟨x, xs ++ [b], by
        show spineList a ++ [b] = _
        rw [h]; rfl⟩
  | var i n => exact ⟨_, [], rfl⟩
  | const n => exact ⟨_, [], rfl⟩
  | oper n => exact ⟨_, [], rfl⟩
  | bind k x M _ => exact ⟨_, [], rfl⟩

/-- The spine of an application has at least two elements. -/
theorem spineList_shape (a b : Expr) :
    ∃ x y zs, spineList (.app a b) = x :: y :: zs := by
  obtain ⟨x, xs, h⟩ := spineList_cons a
  cases xs with
  | nil =>
      refine ⟨x, b, [], ?_⟩
      show spineList a ++ [b] = _
      rw [h]; rfl
  | cons y ys =>
      refine ⟨x, y, ys ++ [b], ?_⟩
      show spineList a ++ [b] = _
      rw [h]; rfl

/-- Spine elements are well-formed when the whole expression is. -/
theorem spineList_WF (e : Expr) : WF e = true →
    ∀ x ∈ spineList e, WF x = true := by
  induction e with
  | app a b iha _ =>
      intro hwf x hx
      simp only [WF, Bool.and_eq_true, Bool.not_eq_true'] at hwf
      obtain ⟨⟨ha, hb⟩, _⟩ := hwf
      have hx' : x ∈ spineList a ∨ x = b := by
        rcases List.mem_append.mp (by
          simpa only [spineList] using hx) with h | h
        · exact Or.inl h
        · simp only [List.mem_cons, List.not_mem_nil, or_false] at h
          exact Or.inr h
      rcases hx' with h | h
      · exact iha ha x h
      · subst h; exact hb
  | var i n =>
      intro hwf x hx
      simp only [spineList, List.mem_cons, List.not_mem_nil, or_false] at hx
      subst hx; exact hwf
  | const n =>
      intro hwf x hx
      simp only [spineList, List.mem_cons, List.not_mem_nil, or_false] at hx
      subst hx; exact hwf
  | oper n =>
      intro hwf x hx
      simp only [spineList, List.mem_cons, List.not_mem_nil, or_false] at hx
      subst hx; exact hwf
  | bind k y M _ =>
      intro hwf x hx
      simp only [spineList, List.mem_cons, List.not_mem_nil, or_false] at hx
      subst hx; exact hwf

/-- Spine elements of an application are strictly smaller. -/
theorem spineList_size (e : Expr) : e.isApp = true →
    ∀ x ∈ spineList e, x.size < e.size := by
  induction e with
  | var i n => intro h; simp [Expr.isApp] at h
  | const n => intro h; simp [Expr.isApp] at h
  | oper n => intro h; simp [Expr.isApp] at h
  | bind k y M _ => intro h; simp [Expr.isApp] at h
  | app a b iha _ =>
      intro _ x hx
      have hbp := Expr.size_pos b
      have hap := Expr.size_pos a
      have hx' : x ∈ spineList a ∨ x = b := by
        rcases List.mem_append.mp (by
          simpa only [spineList] using hx) with h | h
        · exact Or.inl h
        · simp only [List.mem_cons, List.not_mem_nil, or_false] at h
          exact Or.inr h
      rcases hx' with h | h
      · cases happ : a.isApp with
        | true =>
            have := iha happ x h
            simp only [Expr.size]; omega
        | false =>
            rw [spineList_non_app a happ,
              List.mem_cons] at h
            simp only [List.not_mem_nil, or_false] at h
            subst h; simp only [Expr.size]; omega
      · subst h; simp only [Expr.size]; omega

/-- The spine of any application-shaped expression has two or more
elements. -/
theorem spineList_shape' (a : Expr) (h : a.isApp = true) :
    ∃ x y zs, spineList a = x :: y :: zs := by
  cases a with
  | app a1 a2 => exact spineList_shape a1 a2
  | var i n => simp [Expr.isApp] at h
  | const n => simp [Expr.isApp] at h
  | oper n => simp [Expr.isApp] at h
  | bind k x M => simp [Expr.isApp] at h

/-- The second spine element of a well-formed application is not an
operator. -/
theorem spineList_second (e : Expr) : WF e = true → e.isApp = true →
    ∀ x y zs, spineList e = x :: y :: zs → y.isOper = false := by
  induction e with
  | var i n => intro _ h; simp [Expr.isApp] at h
  | const n => intro _ h; simp [Expr.isApp] at h
  | oper n => intro _ h; simp [Expr.isApp] at h
  | bind k y M _ => intro _ h; simp [Expr.isApp] at h
  | app a b iha _ =>
      intro hwf _ x y zs h
      simp only [WF, Bool.and_eq_true, Bool.not_eq_true'] at hwf
      obtain ⟨⟨ha, _⟩, hbop⟩ := hwf
      cases happ : a.isApp with
      | true =>
          obtain ⟨x', y', zs', h'⟩ := spineList_shape' a happ
          have heq : spineList (.app a b) = x' :: y' :: (zs' ++ [b]) := by
            show spineList a ++ [b] = _
            rw [h']; rfl
          rw [heq] at h
          injection h with h1 h2
          injection h2 with h2 h3
          subst h2
          exact iha ha happ x' y' zs' h'
      | false =>
          have heq : spineList (.app a b) = a :: b :: [] := by
            show spineList a ++ [b] = _
            rw [spineList_non_app a happ]; rfl
          rw [heq] at h
          injection h with h1 h2
          injection h2 with h2 h3
          subst h2
          exact hbop

/-- Refolding the spine left-associatively rebuilds the application. -/
theorem spineList_fold (e : Expr) : e.isApp = true →
    ∀ x xs, spineList e = x :: xs → xs.foldl Expr.app x = e := by
  induction e with
  | var i n => intro h; simp [Expr.isApp] at h
  | const n => intro h; simp [Expr.isApp] at h
  | oper n => intro h; simp [Expr.isApp] at h
  | bind k y M _ => intro h; simp [Expr.isApp] at h
  | app a b iha _ =>
      intro _ x xs h
      cases happ : a.isApp with
      | true =>
          obtain ⟨x', xs', hsp⟩ := spineList_cons a
          have heq : spineList (.app a b) = x' :: (xs' ++ [b]) := by
            show spineList a ++ [b] = _
            rw [hsp]; rfl
          rw [heq] at h
          injection h with h1 h2
          subst h1; subst h2
          rw [List.foldl_append, iha happ x' xs' hsp]
          rfl
      | false =>
          have heq : spineList (.app a b) = a :: (b :: []) := by
            show spineList a ++ [b] = _
            rw [spineList_non_app a happ]; rfl
          rw [heq] at h
          injection h with h1 h2
          subst h1; subst h2
          rfl

/-- `normInd` commutes with the application fold. -/
theorem normInd_foldl (xs : List Expr) :
    ∀ x, normInd (xs.foldl Expr.app x)
      = (xs.map normInd).foldl Expr.app (normInd x) := by
  induction xs with
  | nil => intro x; rfl
  | cons y ys ih =>
      intro x
      show normInd (List.foldl Expr.app (.app x y) ys) = _
      rw [ih (.app x y)]
      rfl

/-- `normInd` preserves the operator classification. -/
theorem normInd_isOper (e : Expr) : (normInd e).isOper = e.isOper := by
  cases e <;> rfl

/-- Parsing the rendered tokens: with fuel at least the token count, the
token-level image of a well-formed expression followed by any remainder
parses to the re-classified expression, consuming exactly its tokens. -/
theorem parseF_tokP (n : Nat) :
    ∀ (e : Expr), e.size ≤ n → WF e = true →
    ∀ (rest : List String) (f : Nat), (tokP e).1.length ≤ f →
      parseF f ((tokP e).1 ++ rest) = some (.ok (normInd e, rest)) := by
  induction n using Nat.strong_induction_on with
  | _ n IH =>
    have hloop : ∀ (es : List Expr) (g : Nat) (tail : List String),
        (∀ x ∈ es, WF x = true ∧ x.size ≤ n - 1) →
        ((es.flatMap fun x => (tokP x).1).length + 1 ≤ g) →
        parseExps g ((es.flatMap fun x => (tokP x).1) ++ ")" :: tail)
          = some (.ok (es.map normInd, ")" :: tail)) := by
      intro es
      induction es with
      | nil =>
          intro g tail _ hg
          cases g with
          | zero => simp at hg
          | succ g' => simp [parseExps]
      | cons x xs ihes =>
          intro g tail hall hg
          obtain ⟨hxwf, hxsz⟩ := hall x (by simp)
          have hxtl := tokP_length_pos x
          obtain ⟨t, ts, hts, htne⟩ := tokP_head_ne_close x hxwf
          have hglen : ((tokP x).1.length
              + ((xs.flatMap fun x => (tokP x).1).length + 1)) ≤ g := by
            simpa [List.flatMap_cons, List.length_append] using hg
          cases g with
          | zero => omega
          | succ g' =>
              have hn2 : 1 ≤ n := by
                have := Expr.size_pos x
                omega
              rw [List.flatMap_cons, List.append_assoc, hts]
              show parseExps (g' + 1) (t :: (ts
                ++ ((xs.flatMap fun x => (tokP x).1) ++ ")" :: tail))) = _
              simp only [parseExps, htne, if_false]
              rw [show (t :: (ts
                  ++ ((xs.flatMap fun x => (tokP x).1) ++ ")" :: tail)))
                = (tokP x).1
                  ++ ((xs.flatMap fun x => (tokP x).1) ++ ")" :: tail) by
                rw [hts]; rfl]
              rw [IH (n - 1) (by omega) x hxsz hxwf _ g' (by omega)]
              dsimp only
              rw [ihes g' tail (fun y hy => hall y (by simp [hy]))
                (by omega)]
              rfl
    intro e hsz hwf rest f hf
    cases e with
    | var i nm =>
        obtain ⟨h1, h2, h3, h4, h5, h6, h7, h8⟩ :=
          goodName_spec nm (by simpa [WF] using hwf)
        have h7' : nm ∉ OPS := by
          intro hm
          rw [show OPS.contains nm = OPS.elem nm from rfl,
            List.elem_eq_true_of_mem hm] at h7
          exact absurd h7 (by decide)
        cases f with
        | zero => simp [tokP] at hf
        | succ f' =>
            show parseF (f' + 1) (nm :: rest) = _
            cases hiv : is_indvar nm with
            | true => simp [parseF, h1, h2, h3, h4, h7', hiv, normInd]
            | false => simp [parseF, h1, h2, h3, h4, h7', h8, hiv, normInd]
    | const nm => simp [WF] at hwf
    | oper nm =>
        simp only [WF] at hwf
        have hmem := List.mem_of_elem_eq_true hwf
        simp only [OPS, List.mem_cons, List.not_mem_nil, or_false] at hmem
        cases f with
        | zero => simp [tokP] at hf
        | succ f' =>
            rcases hmem with h | h | h | h | h | h <;> subst h <;>
              · show parseF (f' + 1) _ = _
                simp [parseF, OPS, normInd]
    | bind k x M =>
        have hwf' := hwf
        simp only [WF, Bool.and_eq_true] at hwf'
        obtain ⟨hx, hM⟩ := hwf'
        obtain ⟨hg1, hg2, hg3, hg4, hg5, hg6, hg7, hg8⟩ := goodName_spec x hx
        have hsize : M.size + 1 ≤ n := by simpa [Expr.size] using hsz
        have hMp := Expr.size_pos M
        have hbodywf := chainBody_WF M hM k
        have hbodysz : (chainBody k M).size ≤ n - 1 := by
          have := chainBody_size M k
          omega
        have hchain : ∀ v ∈ chainVars k M, isVariableTok v = true :=
          fun v hv => (goodName_spec v (chainVars_good M hM k v hv)).2.2.2.2.2.2.2
        have hlen : (tokP (.bind k x M)).1.length
            = (chainVars k M).length + (tokP (chainBody k M)).1.length + 3 := by
          rw [tokP_bind]
          simp [tokTailOf_chain M k, List.length_append]
          omega
        cases f with
        | zero =>
            rw [hlen] at hf
            omega
        | succ f' =>
            have hstream : (tokP (.bind k x M)).1 ++ rest
                = kwOf k :: (x :: (chainVars k M
                    ++ "." :: ((tokP (chainBody k M)).1 ++ rest))) := by
              rw [tokP_bind, tokTailOf_chain M k]
              simp
            rw [hstream]
            have hcv := collectVars_vars (chainVars k M) hchain
              ((tokP (chainBody k M)).1 ++ rest)
            have hbody := IH (n - 1) (by omega) (chainBody k M) hbodysz
              hbodywf rest f' (by rw [hlen] at hf; omega)
            have hbuild : buildBinder k (x :: chainVars k M)
                (normInd (chainBody k M)) = normInd (.bind k x M) := by
              show Expr.bind k x (buildBinder k (chainVars k M)
                (normInd (chainBody k M))) = _
              rw [buildBinder_chain M k]
              rfl
            cases k with
            | lam =>
                show parseF (f' + 1) ("\\" :: (x :: (chainVars .lam M
                  ++ "." :: ((tokP (chainBody .lam M)).1 ++ rest)))) = _
                simp only [parseF]
                rw [if_pos (Or.inl trivial), hcv]
                dsimp only
                rw [if_pos rfl, hbody]
                dsimp only
                simp only [if_true]
                rw [hbuild]
            | someE =>
                show parseF (f' + 1) ("some" :: (x :: (chainVars .someE M
                  ++ "." :: ((tokP (chainBody .someE M)).1 ++ rest)))) = _
                simp only [parseF]
                rw [if_pos (Or.inr (Or.inl trivial)), hcv]
                dsimp only
                rw [if_pos rfl, hbody]
                dsimp only
                simp only [show (("some" : String) = "\\") = False by simp,
                  if_false, if_true]
                rw [hbuild]
            | allE =>
                show parseF (f' + 1) ("all" :: (x :: (chainVars .allE M
                  ++ "." :: ((tokP (chainBody .allE M)).1 ++ rest)))) = _
                simp only [parseF]
                rw [if_pos (Or.inr (Or.inr trivial)), hcv]
                dsimp only
                rw [if_pos rfl, hbody]
                dsimp only
                simp only [show (("all" : String) = "\\") = False by simp,
                  show (("all" : String) = "some") = False by simp, if_false]
                rw [hbuild]
    | app a b =>
        obtain ⟨x, y, zs, hsp⟩ := spineList_shape a b
        have hflat : ((spineList (.app a b)).flatMap fun t => (tokP t).1)
            = tokFirstOf a b ++ (tokP b).1 :=
          (spine_tokens (.app a b) hwf rfl).symm.trans (tokP_app_strip a b)
        have htok : (tokP (.app a b)).1
            = "(" :: (((tokP x).1 ++ ((tokP y).1
                ++ (zs.flatMap fun t => (tokP t).1))) ++ [")"]) := by
          rw [tokP_app, ← List.append_assoc, ← hflat, hsp]
          simp [List.flatMap_cons]
        have hxmem : x ∈ spineList (.app a b) := by rw [hsp]; simp
        have hymem : y ∈ spineList (.app a b) := by rw [hsp]; simp
        have hzmem : ∀ t ∈ zs, t ∈ spineList (.app a b) := by
          intro t ht; rw [hsp]; simp [ht]
        have hxwf := spineList_WF _ hwf x hxmem
        have hywf := spineList_WF _ hwf y hymem
        have hxsz := spineList_size (.app a b) rfl x hxmem
        have hysz := spineList_size (.app a b) rfl y hymem
        have hyop := spineList_second (.app a b) hwf rfl x y zs hsp
        have hn1 : 1 ≤ n := by
          have := Expr.size_pos (Expr.app a b)
          omega
        have hlen : (tokP (.app a b)).1.length
            = (tokP x).1.length + (tokP y).1.length
              + (zs.flatMap fun t => (tokP t).1).length + 2 := by
          rw [htok]
          simp [List.length_append]
          omega
        have hxtl := tokP_length_pos x
        have hytl := tokP_length_pos y
        cases f with
        | zero => rw [hlen] at hf; omega
        | succ f' =>
            have hstream : (tokP (.app a b)).1 ++ rest
                = "(" :: ((tokP x).1 ++ ((tokP y).1
                    ++ ((zs.flatMap fun t => (tokP t).1) ++ ")" :: rest))) := by
              rw [htok]
              simp
            rw [hstream]
            show parseF (f' + 1) _ = _
            simp only [parseF]
            rw [if_neg (by rintro (h | h | h) <;> simp at h)]
            simp only [if_true]
            rw [IH (n - 1) (by omega) x (by omega) hxwf _ f'
              (by rw [hlen] at hf; omega)]
            dsimp only
            rw [IH (n - 1) (by omega) y (by omega) hywf _ f'
              (by rw [hlen] at hf; omega)]
            dsimp only
            rw [hloop zs f' rest (fun t ht =>
                ⟨spineList_WF _ hwf t (hzmem t ht),
                  by have := spineList_size (.app a b) rfl t (hzmem t ht); omega⟩)
              (by rw [hlen] at hf; omega)]
            dsimp only
            have hfold : (zs.map normInd).foldl Expr.app
                (.app (normInd x) (normInd y)) = normInd (.app a b) := by
              have h1 := spineList_fold (.app a b) rfl x (y :: zs) hsp
              have h2 := normInd_foldl (y :: zs) x
              rw [← h1, h2]
              rfl
            cases hy : normInd y with
            | oper nm =>
                exfalso
                have := normInd_isOper y
                rw [hy, hyop] at this
                simp [Expr.isOper] at this
            | var i nm =>
                rw [show Expr.app (normInd x) (.var i nm)
                    = Expr.app (normInd x) (normInd y) by rw [hy], hfold]
            | const nm =>
                rw [show Expr.app (normInd x) (.const nm)
                    = Expr.app (normInd x) (normInd y) by rw [hy], hfold]
            | bind kk w B =>
                cases kk with
                | lam =>
                    rw [show Expr.app (normInd x) (.bind .lam w B)
                        = Expr.app (normInd x) (normInd y) by rw [hy], hfold]
                | someE =>
                    rw [show Expr.app (normInd x) (.bind .someE w B)
                        = Expr.app (normInd x) (normInd y) by rw [hy], hfold]
                | allE =>
                    rw [show Expr.app (normInd x) (.bind .allE w B)
                        = Expr.app (normInd x) (normInd y) by rw [hy], hfold]
            | app u v =>
                rw [show Expr.app (normInd x) (.app u v)
                    = Expr.app (normInd x) (normInd y) by rw [hy], hfold]

/-- The complete render/re-parse cycle for a well-formed expression:
`Parser(str(e))` followed by one `next()` succeeds and returns the
re-classified tree. -/
theorem parseStr_render (e : Expr) (h : WF e = true) :
    parseStr (render e) = some (.ok (normInd e)) := by
  have htok := tokens_render e h
  show (match parseF ((tokens (render e).data).length + 1)
      (tokens (render e).data) with
    | none => none
    | some (Except.error err) => some (Except.error err)
    | some (Except.ok (r, _)) => some (Except.ok r)) = _
  rw [htok]
  have hp := parseF_tokP e.size e (Nat.le_refl _) h []
    ((tokP e).1.length + 1) (by omega)
  rw [show (tokP e).1 ++ ([] : List String) = (tokP e).1 by simp] at hp
  rw [hp]

/-- **C5 amended** (parse/render round trip up to alpha-equivalence).
For every expression of the grammar whose names are well-formed single
tokens, which contains no `ConstantExpression` node (the default
`Parser()` declares no constants, so a rendered constant re-parses as a
variable) and no application with an `Operator` as second operand (the
parser's swap reorders exactly those, see the counterexample), parsing
the rendering with a default parser succeeds and yields an expression
alpha-equivalent (via `equals`) to the original.  Exact textual identity
is not required: individual variables are re-classified, compact binder
chains and flattened applications re-sugar. -/
theorem roundtrip_alpha_equiv (e : Expr) (h : WF e = true) :
    ∃ r, parseStr (render e) = some (.ok r) ∧ (equals e r 0).1 = true :=
  ⟨normInd e, parseStr_render e h, by rw [equals_normInd e 0]⟩

/-- Witness for C5 (amended): the round trip on `\y.(x y)`. -/
theorem roundtrip_alpha_equiv_witness :
    ∃ r, parseStr (render lamCapture) = some (.ok r) ∧
      (equals lamCapture r 0).1 = true :=
  roundtrip_alpha_equiv lamCapture (by decide)
